import Mathlib

/-!
# gond: sequential file renaming

A shallow embedding of `main.go` of `ggrpmnn/gond` and theorems about it.

A Go `string` is a sequence of bytes; a byte is represented by its numeric
value.  The Go `int` that holds the pad width is an `Int` (the flag accepts
negative values); the file counter starts at 1 and is only incremented, so it
is a `Nat`.
-/

set_option autoImplicit false
set_option maxRecDepth 8000

namespace Gond

/-! ## Strings -/

/-- A Go string: its bytes, in order. -/
abbrev GoString := List Nat

/-- The bytes of an ASCII literal. -/
def ascii (s : String) : GoString := s.toList.map Char.toNat

/-- Go's `<` on strings: byte-wise lexicographic order, a proper initial
segment being smaller. -/
def bytesLess : GoString → GoString → Bool
  | [], [] => false
  | [], _ :: _ => true
  | _ :: _, [] => false
  | a :: s, b :: t => if a < b then true else if b < a then false else bytesLess s t

/-! ## Library functions used by `main.go` -/

/-- The digit loop of `strconv.Itoa` for a non-negative argument: the decimal
digits of `u` are put in front of `acc`, least significant first.  The first
argument bounds the number of iterations. -/
def itoaLoop : Nat → Nat → GoString → GoString
  | 0, _, acc => acc
  | fuel + 1, u, acc =>
    if u < 10 then (48 + u) :: acc
    else itoaLoop fuel (u / 10) ((48 + u % 10) :: acc)

/-- The function `strconv.Itoa` on a non-negative `int`: its decimal string. -/
def strconvItoa (n : Nat) : GoString := itoaLoop (n + 1) n []

/-- The function `strings.Repeat(s, count)`: `count` copies of `s`; it panics
(`none`) on a negative count. -/
def stringsRepeat (s : GoString) (count : Int) : Option GoString :=
  if count < 0 then none else some (List.replicate count.toNat s).flatten

/-- The loop of `path.Ext`: `k` is `i + 1` for the index `i` the Go loop is
about to inspect; it walks from the end of `path` towards the front, stops
at a `/` and returns `path[i:]` at the first `.` it meets. -/
def extScan (path : GoString) : Nat → GoString
  | 0 => []
  | i + 1 =>
    match path[i]? with
    | none => []
    | some c =>
      if c = 47 then []
      else if c = 46 then path.drop i
      else extScan path i

/-- The function `path.Ext`: the suffix of the last path element that starts
at its last `.`, empty when there is none. -/
def pathExt (path : GoString) : GoString := extScan path path.length

/-- The ASCII loop of `strings.EqualFold(s, t)`.  As soon as either string
shows a byte outside ASCII, Go hands the two remaining strings to its Unicode
loop, which is the parameter `unicodeTail`. -/
def equalFold (unicodeTail : GoString → GoString → Bool) : GoString → GoString → Bool
  | [], [] => true
  | [], _ :: _ => false
  | _ :: _, [] => false
  | sr :: s, tr :: t =>
    if 128 ≤ sr ∨ 128 ≤ tr then unicodeTail (sr :: s) (tr :: t)
    else if tr = sr then equalFold unicodeTail s t
    else if 65 ≤ min sr tr ∧ min sr tr ≤ 90 ∧ max sr tr = min sr tr + 32 then
      equalFold unicodeTail s t
    else false

/-! ## `leftPad` and the new file name -/

/-- The function `leftPad` of `main.go`. -/
def leftPad (s p : GoString) (n : Int) : Option GoString :=
  if (s.length : Int) ≥ n then some s
  else
    let padLen := n - (s.length : Int)
    (stringsRepeat p padLen).map (fun zeros => zeros ++ s)

/-- The second argument of the `os.Rename` call in the loop body of `main`
(lines 102 to 117): the file extension is appended unless it is empty or is
the whole file name. -/
def renameTarget (name sep : GoString) (pad : Int) (fileNum : Nat)
    (fileName : GoString) : Option GoString :=
  let fileExt := pathExt fileName
  if fileExt = [] ∨ fileName = fileExt then
    (leftPad (strconvItoa fileNum) [48] pad).map (fun num => name ++ sep ++ num)
  else
    (leftPad (strconvItoa fileNum) [48] pad).map (fun num => name ++ sep ++ num ++ fileExt)

/-- The zero padding as the specification words it: the decimal string of
the counter, unpadded when its length is at least the pad width, and
otherwise with as many `0` in front as it takes to reach the pad width. -/
def zeroPad (c : Nat) (padWidth : Int) : GoString :=
  if ((strconvItoa c).length : Int) ≥ padWidth then strconvItoa c
  else List.replicate (padWidth.toNat - (strconvItoa c).length) 48 ++ strconvItoa c

/-- What the loop body appends after the padded counter: nothing when
`path.Ext` is empty or is the whole file name, and `path.Ext` otherwise. -/
def extSuffix (fileName : GoString) : GoString :=
  if pathExt fileName = [] ∨ fileName = pathExt fileName then [] else pathExt fileName

/-! ## The file system as the loop sees it -/

/-- The two file system calls of the rename loop, over a state `σ` of the
file system.  `isDir st f` is `isDir(dir + "/" + f)`, the directory flag of
the entry `f` of the target directory, and is `none` when `os.Stat` finds
nothing (the Go function then dereferences a nil `FileInfo` and panics).
`rename st src dst` is `os.Rename(src, dst)` inside the target directory:
the state after the call, and whether the call returned an error. -/
structure FileSys (σ : Type) where
  isDir : σ → GoString → Option Bool
  rename : σ → GoString → GoString → σ × Bool

/-- One `os.Rename` call of the loop: its two arguments and whether it
returned an error. -/
structure Attempt where
  source : GoString
  target : GoString
  failed : Bool
deriving DecidableEq, Repr

/-- The variables of the rename loop (`success`, `fileNum`), the state of the
file system and the `os.Rename` calls made so far, oldest first. -/
structure LoopState (σ : Type) where
  fs : σ
  fileNum : Nat
  success : Bool
  renames : List Attempt
deriving DecidableEq

/-- The state in which `main` enters the loop: `success := true`,
`fileNum := 1`. -/
def LoopState.start {σ : Type} (fs : σ) : LoopState σ :=
  { fs := fs, fileNum := 1, success := true, renames := [] }

/-- The body of the rename loop of `main` (lines 99 to 119) for one file
name; `none` is a panic. -/
def loopBody {σ : Type} (E : FileSys σ) (name sep : GoString) (pad : Int) (inc : Bool)
    (st : LoopState σ) (fileName : GoString) : Option (LoopState σ) :=
  match E.isDir st.fs fileName with
  | none => none
  | some dirTest =>
    if !dirTest || (dirTest && inc) then
      match renameTarget name sep pad st.fileNum fileName with
      | none => none
      | some target =>
        let r := E.rename st.fs fileName target
        some { fs := r.1
               fileNum := st.fileNum + 1
               success := if r.2 then false else st.success
               renames := st.renames ++ [{ source := fileName, target := target, failed := r.2 }] }
    else some st

/-- The rename loop of `main`: the body, for each name of the listing in
order. -/
def renameLoop {σ : Type} (E : FileSys σ) (name sep : GoString) (pad : Int) (inc : Bool) :
    List GoString → LoopState σ → Option (LoopState σ)
  | [], st => some st
  | fileName :: rest, st =>
    match loopBody E name sep pad inc st fileName with
    | none => none
    | some st1 => renameLoop E name sep pad inc rest st1

/-- A file system whose answers are given in advance: `dirOf` tells which
names are directories, and the state is the list of the results of the
`os.Rename` calls still to come (`true` is an error; no error once the list
is used up). -/
def scriptedFS (dirOf : GoString → Bool) : FileSys (List Bool) where
  isDir := fun _ f => some (dirOf f)
  rename := fun script _ _ => (script.tail, script.headD false)

/-- An entry of a directory: what it holds and whether it is a directory. -/
structure Node where
  content : Nat
  isDirectory : Bool
deriving DecidableEq, Repr

/-- A directory as a finite map from entry names to entries, written as the
list of its entries in listing order. -/
abbrev Directory := List (GoString × Node)

/-- The entry of a directory under a name. -/
def Directory.find (d : Directory) (f : GoString) : Option Node :=
  (List.find? (fun e => decide (e.1 = f)) d).map Prod.snd

/-- The names of a directory, in listing order: `filepath.Glob("*")`. -/
def Directory.names (d : Directory) : List GoString := d.map Prod.fst

/-- Where the target of a rename leads: to an entry name of the directory,
to a place outside the directory (inside a subdirectory, say), or nowhere. -/
inductive Place where
  | entry (name : GoString)
  | elsewhere
  | nowhere
deriving DecidableEq, Repr

/-- What the operating system decides about a rename beyond what the
directory map shows: `refuses d src dst` is a refusal for a reason outside the
map (a missing permission, a target directory that is not empty, a read-only
file system), and `pathPlace d dst` is where a target that holds a `/`
leads. -/
structure RenameRules where
  refuses : Directory → GoString → GoString → Bool
  pathPlace : Directory → GoString → Place

/-- The longest entry name the file system takes, in bytes. -/
def nameMax : Nat := 255

/-- Where the second argument of `os.Rename` leads: a target without `/` is
an entry name of the directory, a target with `/` is a path. -/
def Directory.place (rules : RenameRules) (d : Directory) (dst : GoString) : Place :=
  if 47 ∈ dst then rules.pathPlace d dst else .entry dst

/-- The call `os.Rename(src, dst)` in a directory, with the state after it
and whether it returned an error.  It is an error when the source does not
exist, when the operating system refuses, when the target leads nowhere, when
the new name is longer than `nameMax`, and when a file is renamed onto a
directory or a directory onto a file; an error leaves the directory as it
is.  A target outside the directory takes the source out of the directory.
Otherwise the source takes the new name, and an entry that had that name is
replaced. -/
def Directory.rename (rules : RenameRules) (d : Directory) (src dst : GoString) :
    Directory × Bool :=
  match d.find src with
  | none => (d, true)
  | some node =>
    if rules.refuses d src dst then (d, true)
    else
      match Directory.place rules d dst with
      | .nowhere => (d, true)
      | .elsewhere => (d.filter (fun e => decide (e.1 ≠ src)), false)
      | .entry t =>
        if nameMax < t.length then (d, true)
        else if src = t then (d, false)
        else
          match d.find t with
          | some old =>
            if old.isDirectory = node.isDirectory then
              ((d.filter (fun e => decide (e.1 ≠ t))).map
                (fun e => if e.1 = src then (t, e.2) else e), false)
            else (d, true)
          | none =>
            ((d.filter (fun e => decide (e.1 ≠ t))).map
              (fun e => if e.1 = src then (t, e.2) else e), false)

/-- The file system calls of the loop over a directory. -/
def dirFS (rules : RenameRules) : FileSys Directory where
  isDir := fun d f => (d.find f).map Node.isDirectory
  rename := Directory.rename rules

/-- A rule for paths: `sub/x`, with `sub` a subdirectory of the directory and
no further `/` in `x`, leads into `sub`; every other path leads nowhere. -/
def subdirPlace (d : Directory) (dst : GoString) : Place :=
  match d.find (dst.takeWhile (fun b => decide (b ≠ 47))) with
  | none => .nowhere
  | some node =>
    if node.isDirectory = true ∧ (dst.dropWhile (fun b => decide (b ≠ 47))).drop 1 ≠ [] ∧
        47 ∉ (dst.dropWhile (fun b => decide (b ≠ 47))).drop 1 then .elsewhere
    else .nowhere

/-- Rules for examples: the operating system refuses nothing, and a path
leads into a subdirectory as `subdirPlace` says. -/
def plainRules : RenameRules :=
  { refuses := fun _ _ _ => false, pathPlace := subdirPlace }

/-- A file system in which `os.Stat` resolves a name as `statOf` says, `none`
being a name it cannot resolve; renames are as in `scriptedFS`. -/
def statFS (statOf : GoString → Option Bool) : FileSys (List Bool) where
  isDir := fun _ f => statOf f
  rename := fun script _ _ => (script.tail, script.headD false)

/-! ## `main` -/

/-- The constant `ErrIn`. -/
def ErrIn : Nat := 1

/-- The constant `ErrSys`. -/
def ErrSys : Nat := 2

/-- The command line after `flag.Parse()`: the strings given to `-n`, `-d`,
`-s` (empty when absent), the integer given to `-p` if any, the switches `-i`
and `-c`, and `flag.Arg(0)` (empty when absent). -/
structure Flags where
  n : GoString
  d : GoString
  s : GoString
  p : Option Int
  i : Bool
  c : Bool
  arg0 : GoString

/-- What `main` asks of its surroundings before the loop: `os.Getwd` (`none`
is an error), whether `os.Stat` finds a path, `filepath.Abs`, the result of
`ReadString` on standard input (`none` is an error, otherwise the line with
its terminator), `filepath.Glob("*")` in the target directory (`none` is an
error), the file system calls of the loop, and the Unicode loop of
`strings.EqualFold`. -/
structure World (σ : Type) where
  getwd : Option GoString
  pathExists : GoString → Bool
  abs : GoString → GoString
  stdinLine : Option GoString
  glob : σ → Option (List GoString)
  fileSys : FileSys σ
  unicodeTail : GoString → GoString → Bool

/-- How a run of `main` ends: `os.Exit(code)` before the loop, in the state
in which the loop would have started; a panic; or a return after the loop and
the final report. -/
inductive Outcome (σ : Type) where
  | exited (code : Nat) (st : LoopState σ)
  | panicked
  | finished (st : LoopState σ)
deriving DecidableEq

/-- The variable `pad` after `flag.Parse()`: `flag.IntVar(&pad, "p", 0, ...)`. -/
def parsedPad (p : Option Int) : Int := p.getD 0

/-- Lines 67 to 69 of `main`: `if pad == 0 { pad = 1 }`. -/
def resolvePad (pad : Int) : Int := if pad = 0 then 1 else pad

/-- Lines 64 to 66 of `main`: `if sep == "" { sep = "-" }`. -/
def resolveSep (sep : GoString) : GoString := if sep = [] then ascii "-" else sep

/-- Lines 40 to 48 of `main`: the base name is `-n`, else the first
argument, else the run ends with `ErrIn`. -/
def resolveName (n arg0 : GoString) : Except Nat GoString :=
  if n = [] then
    if arg0 ≠ [] then .ok arg0 else .error ErrIn
  else .ok n

/-- Lines 50 to 63 of `main`: the working directory when `-d` is absent,
else the absolute path of `-d`, which has to exist. -/
def resolveDir {σ : Type} (W : World σ) (d : GoString) : Except Nat GoString :=
  if d = [] then
    match W.getwd with
    | none => .error ErrSys
    | some wd => .ok wd
  else if !W.pathExists d then .error ErrIn
  else .ok (W.abs d)

/-- How the confirmation step of `main` ends. -/
inductive Confirm where
  | proceed
  | exit (code : Nat)
  | crash
deriving DecidableEq, Repr

/-- Lines 71 to 85 of `main`: unless `-c` is given, the prompt is printed
(its text repeats `#` `pad` times), a line is read, and the run goes on only
when the line folds to `"Y\n"` or `"YES\n"`. -/
def confirmation (unicodeTail : GoString → GoString → Bool) (conf : Bool) (pad : Int)
    (stdinLine : Option GoString) : Confirm :=
  if !conf then
    match stringsRepeat [35] pad with
    | none => .crash
    | some _ =>
      match stdinLine with
      | none => .exit ErrIn
      | some line =>
        if !equalFold unicodeTail line (ascii "Y\n") && !equalFold unicodeTail line (ascii "YES\n") then
          .exit 0
        else .proceed
  else .proceed

/-- Lines 87 to 128 of `main`: the target directory is listed, the loop runs
over the listing, and the run is reported as a success or not according to
`success`.  The result of `os.Chdir` is ignored by `main`. -/
def listAndRename {σ : Type} (W : World σ) (name sep : GoString) (pad : Int) (inc : Bool)
    (fs : σ) : Outcome σ :=
  match W.glob fs with
  | none => .exited ErrSys (LoopState.start fs)
  | some fileList =>
    match renameLoop W.fileSys name sep pad inc fileList (LoopState.start fs) with
    | none => .panicked
    | some st => .finished st

/-- The function `main`. -/
def main {σ : Type} (W : World σ) (fl : Flags) (fs : σ) : Outcome σ :=
  match resolveName fl.n fl.arg0 with
  | .error code => .exited code (LoopState.start fs)
  | .ok name =>
    match resolveDir W fl.d with
    | .error code => .exited code (LoopState.start fs)
    | .ok _ =>
      let sep := resolveSep fl.s
      let pad := resolvePad (parsedPad fl.p)
      match confirmation W.unicodeTail fl.c pad W.stdinLine with
      | .crash => .panicked
      | .exit code => .exited code (LoopState.start fs)
      | .proceed => listAndRename W name sep pad fl.i fs

/-- A world for examples: every path exists, the line on standard input and
the listing are given, no name is a directory and renames fail as the
script of the file system state says. -/
def exampleWorld (line : GoString) (listing : List GoString) : World (List Bool) where
  getwd := some (ascii "/tmp")
  pathExists := fun _ => true
  abs := fun d => d
  stdinLine := some line
  glob := fun _ => some listing
  fileSys := scriptedFS (fun _ => false)
  unicodeTail := fun _ _ => false

/-- The answers of `os.Stat` in a directory that holds the files `a.txt` and
`zz.txt` and a symbolic link `z` to a file that does not exist. -/
def danglingStat (f : GoString) : Option Bool :=
  if f = ascii "z" then none else some false

/-- A world for the directory of `danglingStat`, listed as `a.txt`, `z`,
`zz.txt`. -/
def danglingWorld : World (List Bool) where
  getwd := some (ascii "/tmp")
  pathExists := fun _ => true
  abs := fun d => d
  stdinLine := none
  glob := fun _ => some [ascii "a.txt", ascii "z", ascii "zz.txt"]
  fileSys := statFS danglingStat
  unicodeTail := fun _ _ => false

/-- The command line `gond -n img -c`. -/
def skipFlags : Flags :=
  { n := ascii "img", d := [], s := [], p := none, i := false, c := true, arg0 := [] }

/-- A directory for examples: the files `a` and `img-1`. -/
def exampleDir : Directory :=
  [(ascii "a", { content := 1, isDirectory := false }),
    (ascii "img-1", { content := 2, isDirectory := false })]

/-- A directory for examples: the subdirectory `sub` and the file `a.txt`. -/
def mixedDir : Directory :=
  [(ascii "sub", { content := 1, isDirectory := true }),
    (ascii "a.txt", { content := 2, isDirectory := false })]

/-- The command line `gond -n img`, with `-p` as given. -/
def exampleFlags (p : Option Int) : Flags :=
  { n := ascii "img", d := [], s := [], p := p, i := false, c := false, arg0 := [] }

/-! ## The claims as the specification words them -/

/-- White space for `strings.TrimSpace` within ASCII: tab, line feed,
vertical tab, form feed, carriage return, space. -/
def isSpace (b : Nat) : Bool := b = 9 || b = 10 || b = 11 || b = 12 || b = 13 || b = 32

/-- A line without the white space at either end. -/
def trimSpace (s : GoString) : GoString :=
  ((s.dropWhile isSpace).reverse.dropWhile isSpace).reverse

/-- The confirmation test as the specification words it: the trimmed line
equals `Y` or `YES`, ignoring case. -/
def specConfirms (unicodeTail : GoString → GoString → Bool) (line : GoString) : Bool :=
  equalFold unicodeTail (trimSpace line) (ascii "Y") ||
    equalFold unicodeTail (trimSpace line) (ascii "YES")

/-- The text after the last `.` of a file name, `none` when there is no
`.`. -/
def afterLastDot : GoString → Option GoString
  | [] => none
  | c :: rest =>
    match afterLastDot rest with
    | some e => some e
    | none => if c = 46 then some rest else none

/-- The extension as the specification words it: the text after the last
`.`, empty when there is no `.` or when the only `.` is the first
character. -/
def specExtension (f : GoString) : GoString :=
  match f with
  | [] => []
  | c :: rest =>
    if c = 46 ∧ 46 ∉ rest then [] else (afterLastDot f).getD []

/-- The new name as the specification words it: base name, separator, padded
counter, and `.` with the extension when the extension is not empty. -/
def specTarget (name sep : GoString) (padWidth : Int) (c : Nat) (f : GoString) : GoString :=
  if specExtension f = [] then name ++ sep ++ zeroPad c padWidth
  else name ++ sep ++ zeroPad c padWidth ++ 46 :: specExtension f

/-- The ASCII lines that are `Y` or `YES` in some letter case, directly
followed by a line feed. -/
def yesLines : List GoString :=
  [ascii "Y\n", ascii "y\n", ascii "YES\n", ascii "YEs\n", ascii "YeS\n", ascii "Yes\n",
    ascii "yES\n", ascii "yEs\n", ascii "yeS\n", ascii "yes\n"]

/-- The number a string of decimal digits stands for. -/
def decVal (s : GoString) : Nat := s.foldl (fun a b => 10 * a + (b - 48)) 0

/-- Whether the loop renames an entry: it is not a directory, or directories
are included. -/
def eligible (inc : Bool) (isDirectory : Bool) : Bool := !isDirectory || (isDirectory && inc)

/-- One rename per name of a list, in order, with consecutive counter values
from `c` on; the results of the renames are read off `script`. -/
def plannedRenames (name sep : GoString) (pad : Int) :
    List GoString → Nat → List Bool → List Attempt
  | [], _, _ => []
  | f :: rest, c, script =>
    { source := f, target := name ++ sep ++ zeroPad c pad ++ extSuffix f,
      failed := script.headD false } :: plannedRenames name sep pad rest (c + 1) script.tail

/-- A directory after the eligible entries took their new names, the counter
starting at `c`. -/
def relabel (name sep : GoString) (pad : Int) (inc : Bool) : Directory → Nat → Directory
  | [], _ => []
  | e :: rest, c =>
    if eligible inc e.2.isDirectory then
      (name ++ sep ++ zeroPad c pad ++ extSuffix e.1, e.2) :: relabel name sep pad inc rest (c + 1)
    else e :: relabel name sep pad inc rest c

/-- No rename of the loop hits an entry that is in the directory under
another name: `cur` holds the entries the loop has passed, `rest` those still
to come, and `c` is the counter. -/
def noClobber (name sep : GoString) (pad : Int) (inc : Bool) :
    Directory → Directory → Nat → Prop
  | _, [], _ => True
  | cur, e :: rest, c =>
    if eligible inc e.2.isDirectory then
      (name ++ sep ++ zeroPad c pad ++ extSuffix e.1 ∉ cur.names ∧
        name ++ sep ++ zeroPad c pad ++ extSuffix e.1 ∉ Directory.names rest) ∧
      noClobber name sep pad inc
        (cur ++ [(name ++ sep ++ zeroPad c pad ++ extSuffix e.1, e.2)]) rest (c + 1)
    else noClobber name sep pad inc (cur ++ [e]) rest c

/-! ## Decimal strings -/

theorem itoaLoop_acc (fuel : Nat) : ∀ (u : Nat) (acc : GoString),
    itoaLoop fuel u acc = itoaLoop fuel u [] ++ acc := by
  induction fuel with
  | zero => intro u acc; simp [itoaLoop]
  | succ fuel ih =>
    intro u acc
    simp only [itoaLoop]
    split
    · simp
    · rw [ih (u / 10) ((48 + u % 10) :: acc), ih (u / 10) [48 + u % 10]]
      simp

theorem itoaLoop_fuel (f1 : Nat) : ∀ (f2 u : Nat), u < f1 → u < f2 →
    itoaLoop f1 u [] = itoaLoop f2 u [] := by
  induction f1 with
  | zero => intro f2 u h; omega
  | succ f1 ih =>
    intro f2 u h1 h2
    cases f2 with
    | zero => omega
    | succ f2 =>
      simp only [itoaLoop]
      split
      · rfl
      · rw [itoaLoop_acc f1, itoaLoop_acc f2, ih f2 (u / 10) (by omega) (by omega)]

theorem strconvItoa_lt (u : Nat) (h : u < 10) : strconvItoa u = [48 + u] := by
  simp [strconvItoa, itoaLoop, h]

theorem strconvItoa_ge (u : Nat) (h : 10 ≤ u) :
    strconvItoa u = strconvItoa (u / 10) ++ [48 + u % 10] := by
  have h1 : ¬ u < 10 := by omega
  have h2 : itoaLoop (u + 1) u [] = itoaLoop u (u / 10) [48 + u % 10] := by
    simp only [itoaLoop, h1, if_false]
  unfold strconvItoa
  rw [h2, itoaLoop_acc u, itoaLoop_fuel u (u / 10 + 1) (u / 10) (by omega) (by omega)]

theorem strconvItoa_digits (u : Nat) : ∀ b ∈ strconvItoa u, 48 ≤ b ∧ b ≤ 57 := by
  induction u using Nat.strong_induction_on with
  | _ u ih =>
    by_cases h : u < 10
    · rw [strconvItoa_lt u h]
      intro b hb
      simp at hb
      omega
    · rw [strconvItoa_ge u (by omega)]
      intro b hb
      rcases List.mem_append.1 hb with hb | hb
      · exact ih (u / 10) (by omega) b hb
      · simp at hb
        omega

theorem decVal_snoc (s : GoString) (b : Nat) : decVal (s ++ [b]) = 10 * decVal s + (b - 48) := by
  simp [decVal, List.foldl_append]

theorem decVal_strconvItoa (u : Nat) : decVal (strconvItoa u) = u := by
  induction u using Nat.strong_induction_on with
  | _ u ih =>
    by_cases h : u < 10
    · rw [strconvItoa_lt u h]
      simp [decVal]
    · rw [strconvItoa_ge u (by omega), decVal_snoc, ih (u / 10) (by omega)]
      omega

theorem strconvItoa_length_pos (u : Nat) : 0 < (strconvItoa u).length := by
  by_cases h : u < 10
  · rw [strconvItoa_lt u h]; simp
  · rw [strconvItoa_ge u (by omega)]; simp

/-! ## `leftPad` -/

theorem flatten_replicate_singleton (k b : Nat) :
    (List.replicate k [b]).flatten = List.replicate k b := by
  induction k with
  | zero => rfl
  | succ k ih => simp [List.replicate_succ, ih]

theorem leftPad_itoa (c : Nat) (p : Int) :
    leftPad (strconvItoa c) [48] p = some (zeroPad c p) := by
  unfold leftPad zeroPad
  by_cases h : ((strconvItoa c).length : Int) ≥ p
  · simp [h]
  · have h2 : ¬ (p - ((strconvItoa c).length : Int) < 0) := by omega
    have h3 : (p - ((strconvItoa c).length : Int)).toNat = p.toNat - (strconvItoa c).length := by
      omega
    simp only [h, if_false, stringsRepeat, h2, Option.map_some', h3,
      flatten_replicate_singleton]

theorem renameTarget_eq (name sep : GoString) (pad : Int) (c : Nat) (f : GoString) :
    renameTarget name sep pad c f = some (name ++ sep ++ zeroPad c pad ++ extSuffix f) := by
  unfold renameTarget extSuffix
  simp only [leftPad_itoa, Option.map_some']
  split <;> simp

/-! ## `path.Ext` -/

theorem getElem?_mid (p : GoString) (c : Nat) (r : GoString) :
    (p ++ c :: r)[p.length]? = some c := by
  rw [List.getElem?_append_right (le_refl _)]
  simp

theorem extScan_no_dot (f : GoString) (h : 46 ∉ f) : ∀ k, extScan f k = [] := by
  intro k
  induction k with
  | zero => rfl
  | succ i ih =>
    cases hg : f[i]? with
    | none => simp only [extScan, hg]
    | some c =>
      have hc : c ∈ f := List.getElem?_mem hg
      have h46 : c ≠ 46 := fun e => h (e ▸ hc)
      simp only [extScan, hg, h46, if_false, ih]
      split <;> rfl

theorem pathExt_no_dot (f : GoString) (h : 46 ∉ f) : pathExt f = [] :=
  extScan_no_dot f h f.length

theorem extScan_skip (s : GoString) : ∀ (p q : GoString), 46 ∉ s → 47 ∉ s →
    extScan (p ++ (s ++ q)) (p.length + s.length) = extScan (p ++ (s ++ q)) p.length := by
  induction s with
  | nil => intro p q _ _; simp
  | cons c s ih =>
    intro p q h46 h47
    have hc46 : c ≠ 46 := fun e => h46 (by simp [e])
    have hc47 : c ≠ 47 := fun e => h47 (by simp [e])
    have hs46 : 46 ∉ s := fun e => h46 (List.mem_cons_of_mem c e)
    have hs47 : 47 ∉ s := fun e => h47 (List.mem_cons_of_mem c e)
    have e : p ++ (c :: s ++ q) = (p ++ [c]) ++ (s ++ q) := by simp
    have hlen : p.length + (c :: s).length = (p ++ [c]).length + s.length := by
      simp only [List.length_cons, List.length_append, List.length_nil]; omega
    rw [e, hlen, ih (p ++ [c]) q hs46 hs47]
    have hg : ((p ++ [c]) ++ (s ++ q))[p.length]? = some c := by
      have := getElem?_mid p c (s ++ q)
      simpa using this
    simp only [List.length_append, List.length_singleton, List.length_nil, extScan, hg,
      hc46, hc47, if_false]

theorem pathExt_split (pre ext : GoString) (h46 : 46 ∉ ext) (h47 : 47 ∉ ext) :
    pathExt (pre ++ 46 :: ext) = 46 :: ext := by
  have e : pre ++ 46 :: ext = (pre ++ [46]) ++ (ext ++ []) := by simp
  have hlen : (pre ++ 46 :: ext).length = (pre ++ [46]).length + ext.length := by
    simp only [List.length_cons, List.length_append, List.length_nil]; omega
  unfold pathExt
  rw [hlen, e, extScan_skip ext (pre ++ [46]) [] h46 h47]
  have hg : ((pre ++ [46]) ++ (ext ++ []))[pre.length]? = some 46 := by
    have := getElem?_mid pre 46 ext
    simpa using this
  simp only [List.length_append, List.length_singleton, List.length_nil, extScan, hg]
  simp

theorem extScan_dotfile (ext : GoString) (h46 : 46 ∉ ext) :
    ∀ k, extScan (46 :: ext) k = [] ∨ extScan (46 :: ext) k = 46 :: ext := by
  intro k
  induction k with
  | zero => left; rfl
  | succ i ih =>
    cases i with
    | zero => right; simp [extScan]
    | succ j =>
      cases hg : ext[j]? with
      | none => left; simp [extScan, hg]
      | some c =>
        have hc : c ∈ ext := List.getElem?_mem hg
        have hc46 : c ≠ 46 := fun e => h46 (e ▸ hc)
        have hg2 : (46 :: ext)[j + 1]? = some c := by simpa using hg
        by_cases hc47 : c = 47
        · left; simp only [extScan, hg2, hc47, if_true]
        · simp only [extScan, hg2, hc47, hc46, if_false] at ih ⊢
          exact ih

theorem extScan_head (f : GoString) :
    ∀ k, extScan f k = [] ∨ ∃ r, extScan f k = 46 :: r := by
  intro k
  induction k with
  | zero => left; rfl
  | succ i ih =>
    cases hg : f[i]? with
    | none => left; simp only [extScan, hg]
    | some c =>
      by_cases hc47 : c = 47
      · left; simp only [extScan, hg, hc47, if_true]
      · by_cases hc46 : c = 46
        · right
          obtain ⟨hi, hci⟩ := List.getElem?_eq_some.1 hg
          refine ⟨f.drop (i + 1), ?_⟩
          simp only [extScan, hg, hc47, hc46, if_false, if_true]
          rw [List.drop_eq_getElem_cons hi, hci, hc46]
          simp
        · simp only [extScan, hg, hc47, hc46, if_false]
          exact ih

theorem extSuffix_head (f : GoString) : extSuffix f = [] ∨ ∃ r, extSuffix f = 46 :: r := by
  unfold extSuffix
  split
  · left; rfl
  · exact extScan_head f f.length

/-! ## The padded counter -/

theorem zeroPad_digits (c : Nat) (p : Int) : ∀ b ∈ zeroPad c p, 48 ≤ b ∧ b ≤ 57 := by
  intro b hb
  unfold zeroPad at hb
  split at hb
  · exact strconvItoa_digits c b hb
  · rcases List.mem_append.1 hb with hb | hb
    · have := List.eq_of_mem_replicate hb
      omega
    · exact strconvItoa_digits c b hb

theorem decVal_zeros (k : Nat) (s : GoString) : decVal (List.replicate k 48 ++ s) = decVal s := by
  induction k with
  | zero => rfl
  | succ k ih =>
    have e : List.replicate (k + 1) 48 ++ s = 48 :: (List.replicate k 48 ++ s) := by
      simp [List.replicate_succ]
    rw [e]
    simpa [decVal] using ih

theorem decVal_zeroPad (c : Nat) (p : Int) : decVal (zeroPad c p) = c := by
  unfold zeroPad
  split
  · exact decVal_strconvItoa c
  · rw [decVal_zeros, decVal_strconvItoa]

theorem dotless_front_unique (a : GoString) : ∀ (b e1 e2 : GoString),
    (∀ x ∈ a, x ≠ 46) → (∀ x ∈ b, x ≠ 46) →
    (e1 = [] ∨ ∃ r, e1 = 46 :: r) → (e2 = [] ∨ ∃ r, e2 = 46 :: r) →
    a ++ e1 = b ++ e2 → a = b := by
  induction a with
  | nil =>
    intro b e1 e2 _ hb h1 _ h
    cases b with
    | nil => rfl
    | cons y b =>
      exfalso
      rcases h1 with h1 | ⟨r, h1⟩
      · rw [h1] at h; simp at h
      · rw [h1] at h
        simp only [List.nil_append, List.cons_append, List.cons.injEq] at h
        exact hb y (List.mem_cons_self y b) h.1.symm
  | cons x a ih =>
    intro b e1 e2 ha hb h1 h2 h
    cases b with
    | nil =>
      exfalso
      rcases h2 with h2 | ⟨r, h2⟩
      · rw [h2] at h; simp at h
      · rw [h2] at h
        simp only [List.nil_append, List.cons_append, List.cons.injEq] at h
        exact ha x (List.mem_cons_self x a) h.1
    | cons y b =>
      simp only [List.cons_append, List.cons.injEq] at h
      have := ih b e1 e2 (fun z hz => ha z (List.mem_cons_of_mem x hz))
        (fun z hz => hb z (List.mem_cons_of_mem y hz)) h1 h2 h.2
      rw [h.1, this]

theorem target_counter_unique (name sep : GoString) (pad : Int) (c1 c2 : Nat)
    (f1 f2 : GoString)
    (h : name ++ sep ++ zeroPad c1 pad ++ extSuffix f1 =
      name ++ sep ++ zeroPad c2 pad ++ extSuffix f2) : c1 = c2 := by
  have h2 : zeroPad c1 pad ++ extSuffix f1 = zeroPad c2 pad ++ extSuffix f2 := by
    simp only [List.append_assoc] at h
    exact List.append_cancel_left (List.append_cancel_left h)
  have h3 := dotless_front_unique (zeroPad c1 pad) (zeroPad c2 pad) (extSuffix f1)
    (extSuffix f2)
    (fun x hx => by have := zeroPad_digits c1 pad x hx; omega)
    (fun x hx => by have := zeroPad_digits c2 pad x hx; omega)
    (extSuffix_head f1) (extSuffix_head f2) h2
  have h4 := congrArg decVal h3
  rwa [decVal_zeroPad, decVal_zeroPad] at h4

/-! ## Claims about a single new name -/

/-- C4: for every counter `c ≥ 1` and every integer pad width `p`,
`leftPad(strconv.Itoa(c), "0", p)` is the decimal string of `c` unchanged when
that string has at least `p` bytes, and otherwise it is `p - len` bytes `0`
followed by the decimal string, `p` bytes in all. -/
theorem leftPad_zero_minimum_width (c : Nat) (hc : 1 ≤ c) (p : Int) :
    decVal (strconvItoa c) = c ∧
    (((strconvItoa c).length : Int) ≥ p →
      leftPad (strconvItoa c) [48] p = some (strconvItoa c)) ∧
    (((strconvItoa c).length : Int) < p →
      ∃ k : Nat, (k : Int) = p - ((strconvItoa c).length : Int) ∧
        leftPad (strconvItoa c) [48] p = some (List.replicate k 48 ++ strconvItoa c) ∧
        ((List.replicate k 48 ++ strconvItoa c).length : Int) = p) := by
  have _ := hc
  refine ⟨decVal_strconvItoa c, ?_, ?_⟩
  · intro h
    simp [leftPad, h]
  · intro h
    refine ⟨p.toNat - (strconvItoa c).length, by omega, ?_, ?_⟩
    · rw [leftPad_itoa]
      have h2 : ¬ ((strconvItoa c).length : Int) ≥ p := by omega
      simp only [zeroPad, h2, if_false]
    · simp only [List.length_append, List.length_replicate]
      omega

theorem leftPad_zero_minimum_width_witness :
    (1 : Nat) ≤ 7 ∧
    (decVal (strconvItoa 7) = 7 ∧
    (((strconvItoa 7).length : Int) ≥ 3 →
      leftPad (strconvItoa 7) [48] 3 = some (strconvItoa 7)) ∧
    (((strconvItoa 7).length : Int) < 3 →
      ∃ k : Nat, (k : Int) = 3 - ((strconvItoa 7).length : Int) ∧
        leftPad (strconvItoa 7) [48] 3 = some (List.replicate k 48 ++ strconvItoa 7) ∧
        ((List.replicate k 48 ++ strconvItoa 7).length : Int) = 3)) ∧
    ((strconvItoa 7).length : Int) < 3 :=
  ⟨by decide, leftPad_zero_minimum_width 7 (by decide) 3, by decide⟩

/-- C3, as the claim words it, fails on a name that ends in `.`: for
`a.` with name `img`, separator `-`, pad 1 and counter 1 the loop renames to
`img-1.`, and the claim gives `img-1`. -/
theorem trailing_dot_keeps_dot :
    renameTarget (ascii "img") (ascii "-") 1 1 (ascii "a.") = some (ascii "img-1.") ∧
    specTarget (ascii "img") (ascii "-") 1 1 (ascii "a.") = ascii "img-1" ∧
    renameTarget (ascii "img") (ascii "-") 1 1 (ascii "a.") ≠
      some (specTarget (ascii "img") (ascii "-") 1 1 (ascii "a.")) := by
  decide

/-- C3, amended: for a file name `f` without `/` and a counter `c` the rename
target is `name ++ separator ++ zeroPad c padWidth` when `f` has no `.` or
its last `.` is its first character, and otherwise that string followed by
the last `.` of `f` and the text after it, which may be empty. -/
theorem renameTarget_last_dot (name sep : GoString) (pad : Int) (c : Nat) (f : GoString)
    (hslash : 47 ∉ f) :
    (46 ∉ f → renameTarget name sep pad c f = some (name ++ sep ++ zeroPad c pad)) ∧
    (∀ pre ext : GoString, f = pre ++ 46 :: ext → 46 ∉ ext →
      renameTarget name sep pad c f =
        some (if pre = [] then name ++ sep ++ zeroPad c pad
              else name ++ sep ++ zeroPad c pad ++ 46 :: ext)) := by
  constructor
  · intro h
    rw [renameTarget_eq]
    simp [extSuffix, pathExt_no_dot f h]
  · intro pre ext hf hext
    have h47 : 47 ∉ ext := fun e => hslash (by rw [hf]; simp [e])
    have hp : pathExt f = 46 :: ext := by rw [hf]; exact pathExt_split pre ext hext h47
    rw [renameTarget_eq]
    unfold extSuffix
    rw [hp]
    by_cases hpre : pre = []
    · have : f = 46 :: ext := by rw [hf, hpre]; rfl
      simp [hpre, this]
    · have hne : f ≠ 46 :: ext := by
        intro e
        have hl := congrArg List.length e
        rw [hf] at hl
        have : 0 < pre.length := List.length_pos.2 hpre
        simp only [List.length_append, List.length_cons] at hl
        omega
      simp [hpre, hne]

theorem renameTarget_last_dot_witness :
    47 ∉ ascii "a." ∧
    ((46 ∉ ascii "a." →
      renameTarget (ascii "img") (ascii "-") 1 1 (ascii "a.") =
        some (ascii "img" ++ ascii "-" ++ zeroPad 1 1)) ∧
    (∀ pre ext : GoString, ascii "a." = pre ++ 46 :: ext → 46 ∉ ext →
      renameTarget (ascii "img") (ascii "-") 1 1 (ascii "a.") =
        some (if pre = [] then ascii "img" ++ ascii "-" ++ zeroPad 1 1
              else ascii "img" ++ ascii "-" ++ zeroPad 1 1 ++ 46 :: ext))) ∧
    ascii "a." = ascii "a" ++ 46 :: [] ∧ 46 ∉ ([] : GoString) :=
  ⟨by decide, renameTarget_last_dot (ascii "img") (ascii "-") 1 1 (ascii "a.") (by decide),
    by decide, by decide⟩

/-- C8: for a file name without `.`, and for a file name that is its own
extension (its only `.` is its first character), the rename target is
exactly `name ++ separator ++ zeroPad counter padWidth`. -/
theorem renameTarget_no_extension (name sep : GoString) (pad : Int) (c : Nat)
    (f : GoString) :
    (46 ∉ f → renameTarget name sep pad c f = some (name ++ sep ++ zeroPad c pad)) ∧
    (f = pathExt f → renameTarget name sep pad c f = some (name ++ sep ++ zeroPad c pad)) ∧
    (∀ ext : GoString, f = 46 :: ext → 46 ∉ ext →
      renameTarget name sep pad c f = some (name ++ sep ++ zeroPad c pad)) := by
  refine ⟨?_, ?_, ?_⟩
  · intro h
    rw [renameTarget_eq]
    simp [extSuffix, pathExt_no_dot f h]
  · intro h
    rw [renameTarget_eq]
    simp [extSuffix, ← h]
  · intro ext hf hext
    rw [renameTarget_eq]
    unfold extSuffix pathExt
    rw [hf]
    rcases extScan_dotfile ext hext (46 :: ext).length with h | h
    · rw [h]; simp
    · rw [h]; simp

theorem renameTarget_no_extension_witness :
    (46 ∉ ascii ".gitignore" →
      renameTarget (ascii "img") (ascii "-") 2 3 (ascii ".gitignore") =
        some (ascii "img" ++ ascii "-" ++ zeroPad 3 2)) ∧
    (ascii ".gitignore" = pathExt (ascii ".gitignore") →
      renameTarget (ascii "img") (ascii "-") 2 3 (ascii ".gitignore") =
        some (ascii "img" ++ ascii "-" ++ zeroPad 3 2)) ∧
    (∀ ext : GoString, ascii ".gitignore" = 46 :: ext → 46 ∉ ext →
      renameTarget (ascii "img") (ascii "-") 2 3 (ascii ".gitignore") =
        some (ascii "img" ++ ascii "-" ++ zeroPad 3 2)) ∧
    ascii ".gitignore" = pathExt (ascii ".gitignore") ∧
    ascii "img" ++ ascii "-" ++ zeroPad 3 2 = ascii "img-03" :=
  ⟨(renameTarget_no_extension (ascii "img") (ascii "-") 2 3 (ascii ".gitignore")).1,
    (renameTarget_no_extension (ascii "img") (ascii "-") 2 3 (ascii ".gitignore")).2.1,
    (renameTarget_no_extension (ascii "img") (ascii "-") 2 3 (ascii ".gitignore")).2.2,
    by decide, by decide⟩

/-- C10: for counters `c1 ≠ c2`, both at least 1, and any two file names, the
loop computes two different rename targets. -/
theorem renameTarget_distinct (name sep : GoString) (pad : Int) (c1 c2 : Nat)
    (f1 f2 : GoString) (h1 : 1 ≤ c1) (h2 : 1 ≤ c2) (hne : c1 ≠ c2) :
    ∃ t1 t2 : GoString, renameTarget name sep pad c1 f1 = some t1 ∧
      renameTarget name sep pad c2 f2 = some t2 ∧
      t1 = name ++ sep ++ zeroPad c1 pad ++ extSuffix f1 ∧
      t2 = name ++ sep ++ zeroPad c2 pad ++ extSuffix f2 ∧ t1 ≠ t2 := by
  have _ := h1
  have _ := h2
  refine ⟨_, _, renameTarget_eq name sep pad c1 f1, renameTarget_eq name sep pad c2 f2,
    rfl, rfl, ?_⟩
  intro h
  exact hne (target_counter_unique name sep pad c1 c2 f1 f2 h)

theorem renameTarget_distinct_witness :
    (1 : Nat) ≤ 1 ∧ (1 : Nat) ≤ 10 ∧ (1 : Nat) ≠ 10 ∧
    ∃ t1 t2 : GoString,
      renameTarget (ascii "img") (ascii "-") 2 1 (ascii "a.txt") = some t1 ∧
      renameTarget (ascii "img") (ascii "-") 2 10 (ascii "b") = some t2 ∧
      t1 = ascii "img" ++ ascii "-" ++ zeroPad 1 2 ++ extSuffix (ascii "a.txt") ∧
      t2 = ascii "img" ++ ascii "-" ++ zeroPad 10 2 ++ extSuffix (ascii "b") ∧ t1 ≠ t2 :=
  ⟨by decide, by decide, by decide,
    renameTarget_distinct (ascii "img") (ascii "-") 2 1 10 (ascii "a.txt") (ascii "b")
      (by decide) (by decide) (by decide)⟩

/-! ## The loop over a scripted file system -/

theorem loopBody_scripted (dirOf : GoString → Bool) (name sep : GoString) (pad : Int)
    (inc : Bool) (st : LoopState (List Bool)) (f : GoString) :
    loopBody (scriptedFS dirOf) name sep pad inc st f =
      some (if eligible inc (dirOf f) = true then
          { fs := st.fs.tail
            fileNum := st.fileNum + 1
            success := if st.fs.headD false then false else st.success
            renames := st.renames ++
              [{ source := f, target := name ++ sep ++ zeroPad st.fileNum pad ++ extSuffix f,
                 failed := st.fs.headD false }] }
        else st) := by
  by_cases he : eligible inc (dirOf f) = true
  · have he2 : (!dirOf f || (dirOf f && inc)) = true := he
    simp only [loopBody, scriptedFS, he2, he, if_true, renameTarget_eq]
  · have he2 : ¬ (!dirOf f || (dirOf f && inc)) = true := he
    simp only [loopBody, scriptedFS, he2, he, if_false]
    simp

theorem renameLoop_scripted (dirOf : GoString → Bool) (name sep : GoString) (pad : Int)
    (inc : Bool) (listing : List GoString) : ∀ st : LoopState (List Bool),
    renameLoop (scriptedFS dirOf) name sep pad inc listing st =
      some { fs := st.fs.drop (listing.filter (fun f => eligible inc (dirOf f))).length
             fileNum := st.fileNum + (listing.filter (fun f => eligible inc (dirOf f))).length
             success := st.success &&
               (plannedRenames name sep pad (listing.filter (fun f => eligible inc (dirOf f)))
                 st.fileNum st.fs).all (fun a => !a.failed)
             renames := st.renames ++
               plannedRenames name sep pad (listing.filter (fun f => eligible inc (dirOf f)))
                 st.fileNum st.fs } := by
  induction listing with
  | nil => intro st; simp [renameLoop, plannedRenames]
  | cons f rest ih =>
    intro st
    simp only [renameLoop, loopBody_scripted]
    rw [ih]
    by_cases he : eligible inc (dirOf f) = true
    · simp only [List.filter_cons, he, if_true, plannedRenames, List.length_cons,
        List.all_cons, List.append_assoc, List.singleton_append]
      cases hs : st.fs with
      | nil => simp [Nat.add_assoc, Nat.add_comm 1]
      | cons b bs =>
        cases b <;> simp [Nat.add_assoc, Nat.add_comm 1]
    · simp only [List.filter_cons, he, if_false]
      rfl

theorem plannedRenames_pairs (name sep : GoString) (pad : Int) (l : List GoString) :
    ∀ (c : Nat) (script : List Bool),
    (plannedRenames name sep pad l c script).map (fun a => (a.source, a.target)) =
      (List.enumFrom c l).map (fun kf => (kf.2, name ++ sep ++ zeroPad kf.1 pad ++ extSuffix kf.2)) := by
  induction l with
  | nil => intro c script; rfl
  | cons f rest ih =>
    intro c script
    simp only [plannedRenames, List.map_cons, List.enumFrom_cons, ih]

theorem plannedRenames_length (name sep : GoString) (pad : Int) (l : List GoString) :
    ∀ (c : Nat) (script : List Bool), (plannedRenames name sep pad l c script).length = l.length := by
  induction l with
  | nil => intro c script; rfl
  | cons f rest ih => intro c script; simp [plannedRenames, ih]

theorem plannedRenames_failed (name sep : GoString) (pad : Int) (l : List GoString) :
    ∀ (c : Nat) (script : List Bool),
    (plannedRenames name sep pad l c script).map Attempt.failed =
      (List.range l.length).map (fun k => script.getD k false) := by
  induction l with
  | nil => intro c script; rfl
  | cons f rest ih =>
    intro c script
    simp only [plannedRenames, List.map_cons, ih, List.length_cons, List.range_succ_eq_map,
      List.map_map]
    cases script <;> simp [Function.comp_def]

/-- When `os.Stat` resolves every listed name, the loop issues exactly one
rename per eligible name, in listing order, the k-th eligible name (from 1)
with counter value k; a name that is not eligible is no source and takes no
counter value.  For the listing `b.txt`, `a.txt`, `c` with name `img`,
separator `-` and pad 2 the targets are `img-01.txt`, `img-02.txt`,
`img-03`. -/
theorem renameLoop_one_rename_per_eligible (dirOf : GoString → Bool) (script : List Bool)
    (name sep : GoString) (pad : Int) (inc : Bool) (listing : List GoString) :
    (∃ st, renameLoop (scriptedFS dirOf) name sep pad inc listing (LoopState.start script)
        = some st ∧
      st.renames.map (fun a => (a.source, some a.target)) =
        (List.enumFrom 1 (listing.filter (fun f => eligible inc (dirOf f)))).map
          (fun kf => (kf.2, renameTarget name sep pad kf.1 kf.2)) ∧
      st.fileNum = 1 + (listing.filter (fun f => eligible inc (dirOf f))).length) ∧
    (renameLoop (scriptedFS (fun _ => false)) (ascii "img") (ascii "-") 2 false
        [ascii "b.txt", ascii "a.txt", ascii "c"] (LoopState.start [])).map
      (fun st => st.renames.map (fun a => (a.source, a.target))) =
      some [(ascii "b.txt", ascii "img-01.txt"), (ascii "a.txt", ascii "img-02.txt"),
        (ascii "c", ascii "img-03")] := by
  constructor
  · refine ⟨_, renameLoop_scripted dirOf name sep pad inc listing (LoopState.start script), ?_, ?_⟩
    · have h := plannedRenames_pairs name sep pad
        (listing.filter (fun f => eligible inc (dirOf f))) 1 script
      have h2 := congrArg (List.map (fun q : GoString × GoString => (q.1, some q.2))) h
      simp only [List.map_map] at h2
      simp only [LoopState.start, List.nil_append, renameTarget_eq]
      exact h2
    · simp [LoopState.start]
  · decide

/-- C1, where the code departs from it: in a directory with the files
`a.txt` and `zz.txt` and a symbolic link `z` to a missing file, `a.txt` is
renamed to `img-1.txt`, then `isDir` panics on `z`, which `os.Stat` cannot
resolve; `z` and `zz.txt`, both eligible, are never renamed, where the claim
has one rename for each of the three names. -/
theorem unresolved_entry_panics :
    loopBody (statFS danglingStat) (ascii "img") (ascii "-") 1 false (LoopState.start [])
        (ascii "a.txt") =
      some { fs := [], fileNum := 2, success := true,
             renames := [{ source := ascii "a.txt", target := ascii "img-1.txt",
                           failed := false }] } ∧
    loopBody (statFS danglingStat) (ascii "img") (ascii "-") 1 false
        { fs := [], fileNum := 2, success := true,
          renames := [{ source := ascii "a.txt", target := ascii "img-1.txt",
                        failed := false }] } (ascii "z") = none ∧
    renameLoop (statFS danglingStat) (ascii "img") (ascii "-") 1 false
        [ascii "a.txt", ascii "z", ascii "zz.txt"] (LoopState.start []) = none ∧
    main danglingWorld skipFlags [] = Outcome.panicked ∧
    ([ascii "a.txt", ascii "z", ascii "zz.txt"].filter
        (fun f => eligible false ((danglingStat f).getD false))).length = 3 := by
  decide

/-- C9: whatever the results of the renames, the loop issues the same
renames, with the same sources and targets, as when no rename fails; the
counter ends one past the number of eligible names; each rename fails as the
script says; and `success` is still true at the end exactly when no rename
failed. -/
theorem renameLoop_continues_after_failure (dirOf : GoString → Bool) (script : List Bool)
    (name sep : GoString) (pad : Int) (inc : Bool) (listing : List GoString) :
    ∃ st st0, renameLoop (scriptedFS dirOf) name sep pad inc listing (LoopState.start script)
        = some st ∧
      renameLoop (scriptedFS dirOf) name sep pad inc listing (LoopState.start []) = some st0 ∧
      (∀ a ∈ st0.renames, a.failed = false) ∧
      st.renames.map (fun a => (a.source, a.target)) =
        st0.renames.map (fun a => (a.source, a.target)) ∧
      st.renames.length = (listing.filter (fun f => eligible inc (dirOf f))).length ∧
      st.fileNum = st0.fileNum ∧
      st.fileNum = 1 + (listing.filter (fun f => eligible inc (dirOf f))).length ∧
      st.renames.map Attempt.failed =
        (List.range st.renames.length).map (fun k => script.getD k false) ∧
      (st.success = true ↔ ∀ a ∈ st.renames, a.failed = false) := by
  refine ⟨_, _, renameLoop_scripted dirOf name sep pad inc listing (LoopState.start script),
    renameLoop_scripted dirOf name sep pad inc listing (LoopState.start []), ?_, ?_, ?_, ?_, ?_,
    ?_, ?_⟩
  · intro a ha
    simp only [LoopState.start, List.nil_append] at ha
    have h := plannedRenames_failed name sep pad
      (listing.filter (fun f => eligible inc (dirOf f))) 1 []
    have h2 : a.failed ∈ (plannedRenames name sep pad
        (listing.filter (fun f => eligible inc (dirOf f))) 1 []).map Attempt.failed :=
      List.mem_map_of_mem Attempt.failed ha
    rw [h] at h2
    simp at h2
    exact h2.2
  · simp only [LoopState.start, List.nil_append, plannedRenames_pairs]
  · simp only [LoopState.start, List.nil_append, plannedRenames_length]
  · rfl
  · simp [LoopState.start]
  · simp only [LoopState.start, List.nil_append, plannedRenames_failed, plannedRenames_length]
  · simp only [LoopState.start, List.nil_append, Bool.true_and, List.all_eq_true]
    constructor
    · intro h a ha
      have := h a ha
      simpa using this
    · intro h a ha
      simp [h a ha]

/-! ## Order of the new names -/

theorem strconvItoa_length_le (c : Nat) : ∀ n : Nat, 1 ≤ n → c < 10 ^ n →
    (strconvItoa c).length ≤ n := by
  induction c using Nat.strong_induction_on with
  | _ c ih =>
    intro n hn hc
    by_cases h : c < 10
    · rw [strconvItoa_lt c h]; simpa using hn
    · rw [strconvItoa_ge c (by omega)]
      cases n with
      | zero => omega
      | succ m =>
        cases m with
        | zero => simp at hc; omega
        | succ m =>
          have h1 : c / 10 < 10 ^ (m + 1) := by
            rw [Nat.div_lt_iff_lt_mul (by decide)]
            calc c < 10 ^ (m + 1 + 1) := hc
              _ = 10 ^ (m + 1) * 10 := by rw [pow_succ]
          have := ih (c / 10) (by omega) (m + 1) (by omega) h1
          simp only [List.length_append, List.length_singleton]
          omega

theorem zeroPad_length (c : Nat) (pad : Int) (hc : 1 ≤ c) (h : c < 10 ^ pad.toNat) :
    (zeroPad c pad).length = pad.toNat := by
  have hP : 1 ≤ pad.toNat := by
    rcases Nat.eq_zero_or_pos pad.toNat with h0 | h0
    · rw [h0] at h; simp at h; omega
    · exact h0
  have hl := strconvItoa_length_le c pad.toNat hP h
  unfold zeroPad
  split
  · omega
  · simp only [List.length_append, List.length_replicate]
    omega

theorem foldl_dec (s : GoString) : ∀ acc : Nat,
    s.foldl (fun a b => 10 * a + (b - 48)) acc =
      acc * 10 ^ s.length + s.foldl (fun a b => 10 * a + (b - 48)) 0 := by
  induction s with
  | nil => intro acc; simp
  | cons b s ih =>
    intro acc
    simp only [List.foldl_cons, List.length_cons]
    rw [ih (10 * acc + (b - 48)), ih (10 * 0 + (b - 48))]
    ring

theorem decVal_cons (b : Nat) (s : GoString) :
    decVal (b :: s) = (b - 48) * 10 ^ s.length + decVal s := by
  unfold decVal
  simp only [List.foldl_cons]
  rw [foldl_dec s (10 * 0 + (b - 48))]
  simp

theorem decVal_lt (s : GoString) (h : ∀ b ∈ s, 48 ≤ b ∧ b ≤ 57) : decVal s < 10 ^ s.length := by
  induction s with
  | nil => simp [decVal]
  | cons b s ih =>
    have hb := h b (List.mem_cons_self b s)
    have hs := ih (fun x hx => h x (List.mem_cons_of_mem b hx))
    rw [decVal_cons, List.length_cons, pow_succ]
    have : (b - 48) * 10 ^ s.length ≤ 9 * 10 ^ s.length :=
      Nat.mul_le_mul_right _ (by omega)
    omega

theorem digits_lex (a : GoString) : ∀ b : GoString, a.length = b.length →
    (∀ x ∈ a, 48 ≤ x ∧ x ≤ 57) → (∀ x ∈ b, 48 ≤ x ∧ x ≤ 57) → decVal a < decVal b →
    ∀ x y : GoString, bytesLess (a ++ x) (b ++ y) = true := by
  induction a with
  | nil =>
    intro b hl _ _ hlt x y
    cases b with
    | nil => simp [decVal] at hlt
    | cons _ _ => simp at hl
  | cons u a ih =>
    intro b hl ha hb hlt x y
    cases b with
    | nil => simp at hl
    | cons v b =>
      have hu := ha u (List.mem_cons_self u a)
      have hv := hb v (List.mem_cons_self v b)
      have ha2 : ∀ z ∈ a, 48 ≤ z ∧ z ≤ 57 := fun z hz => ha z (List.mem_cons_of_mem u hz)
      have hb2 : ∀ z ∈ b, 48 ≤ z ∧ z ≤ 57 := fun z hz => hb z (List.mem_cons_of_mem v hz)
      have hl2 : a.length = b.length := by simpa using hl
      have hda := decVal_lt a ha2
      have hdb := decVal_lt b hb2
      rw [decVal_cons, decVal_cons, hl2] at hlt
      rw [hl2] at hda
      simp only [List.cons_append, bytesLess]
      by_cases h1 : u < v
      · simp [h1]
      · by_cases h2 : v < u
        · exfalso
          have : (v - 48 + 1) * 10 ^ b.length ≤ (u - 48) * 10 ^ b.length :=
            Nat.mul_le_mul_right _ (by omega)
          rw [Nat.add_mul, Nat.one_mul] at this
          omega
        · have huv : u = v := by omega
          rw [huv] at hlt
          simp only [h1, h2, if_false]
          exact ih b hl2 ha2 hb2 (by omega) x y

theorem bytesLess_append_left (p a b : GoString) :
    bytesLess (p ++ a) (p ++ b) = bytesLess a b := by
  induction p with
  | nil => rfl
  | cons c p ih => simp [bytesLess, ih]

theorem target_lt (name sep : GoString) (pad : Int) (c1 c2 : Nat) (e1 e2 : GoString)
    (h1 : 1 ≤ c1) (h12 : c1 < c2) (h2 : c2 < 10 ^ pad.toNat) :
    bytesLess (name ++ sep ++ zeroPad c1 pad ++ e1) (name ++ sep ++ zeroPad c2 pad ++ e2)
      = true := by
  have hl1 := zeroPad_length c1 pad h1 (by omega)
  have hl2 := zeroPad_length c2 pad (by omega) h2
  have e : ∀ (z e : GoString), name ++ sep ++ z ++ e = (name ++ sep) ++ (z ++ e) := by
    intro z e; simp
  rw [e, e, bytesLess_append_left]
  exact digits_lex (zeroPad c1 pad) (zeroPad c2 pad) (by omega) (zeroPad_digits c1 pad)
    (zeroPad_digits c2 pad) (by rw [decVal_zeroPad, decVal_zeroPad]; exact h12) e1 e2

theorem plannedRenames_mem (name sep : GoString) (pad : Int) (l : List GoString) :
    ∀ (c : Nat) (script : List Bool) (a : Attempt), a ∈ plannedRenames name sep pad l c script →
    ∃ (k : Nat) (f : GoString), c ≤ k ∧ k < c + l.length ∧
      a.target = name ++ sep ++ zeroPad k pad ++ extSuffix f := by
  induction l with
  | nil => intro c script a ha; simp [plannedRenames] at ha
  | cons f rest ih =>
    intro c script a ha
    simp only [plannedRenames, List.mem_cons] at ha
    rcases ha with ha | ha
    · exact ⟨c, f, le_refl c, by simp, by rw [ha]⟩
    · obtain ⟨k, g, h1, h2, h3⟩ := ih (c + 1) script.tail a ha
      exact ⟨k, g, by omega, by simp only [List.length_cons]; omega, h3⟩

theorem plannedRenames_sorted (name sep : GoString) (pad : Int) (l : List GoString) :
    ∀ (c : Nat) (script : List Bool), 1 ≤ c → c + l.length ≤ 10 ^ pad.toNat →
    List.Pairwise (fun a b : Attempt => bytesLess a.target b.target = true)
      (plannedRenames name sep pad l c script) := by
  induction l with
  | nil => intro c script _ _; simp [plannedRenames]
  | cons f rest ih =>
    intro c script hc hlen
    simp only [List.length_cons] at hlen
    simp only [plannedRenames, List.pairwise_cons]
    constructor
    · intro a ha
      obtain ⟨k, g, h1, h2, h3⟩ := plannedRenames_mem name sep pad rest (c + 1) script.tail a ha
      rw [h3]
      exact target_lt name sep pad c k (extSuffix f) (extSuffix g) hc (by omega) (by omega)
    · exact ih (c + 1) script.tail (by omega) (by omega)

/-- C5, as the claim words it, fails when the pad width is too small for the
number of entries: of ten files renamed with pad 1 the ninth becomes `img-9`
and the tenth `img-10`, and `img-9` is not smaller than `img-10`. -/
theorem narrow_pad_breaks_order :
    (renameLoop (scriptedFS (fun _ => false)) (ascii "img") (ascii "-") 1 false
        [ascii "a", ascii "b", ascii "c", ascii "d", ascii "e", ascii "f", ascii "g",
          ascii "h", ascii "i", ascii "j"] (LoopState.start [])).map
      (fun st => (st.renames.drop 8).map (fun a => (a.source, a.target))) =
      some [(ascii "i", ascii "img-9"), (ascii "j", ascii "img-10")] ∧
    bytesLess (ascii "img-9") (ascii "img-10") = false := by
  decide

/-- C5, amended: when the listing has fewer than `10 ^ padWidth` eligible
names, the new name of an eligible name is strictly smaller, in byte-wise
lexicographic order, than the new name of every eligible name that comes
later in the listing. -/
theorem renamed_order_preserved (dirOf : GoString → Bool) (script : List Bool)
    (name sep : GoString) (pad : Int) (inc : Bool) (listing : List GoString)
    (h : (listing.filter (fun f => eligible inc (dirOf f))).length < 10 ^ pad.toNat) :
    ∃ st, renameLoop (scriptedFS dirOf) name sep pad inc listing (LoopState.start script)
        = some st ∧
      st.renames.map Attempt.source = listing.filter (fun f => eligible inc (dirOf f)) ∧
      List.Pairwise (fun a b : Attempt => bytesLess a.target b.target = true) st.renames := by
  refine ⟨_, renameLoop_scripted dirOf name sep pad inc listing (LoopState.start script), ?_, ?_⟩
  · have hp := plannedRenames_pairs name sep pad
      (listing.filter (fun f => eligible inc (dirOf f))) 1 script
    have h2 := congrArg (List.map Prod.fst) hp
    simp only [List.map_map] at h2
    simp only [LoopState.start, List.nil_append]
    rw [show Attempt.source = Prod.fst ∘ (fun a : Attempt => (a.source, a.target)) from rfl, h2]
    have h3 : (Prod.fst ∘ fun kf : Nat × GoString =>
        (kf.2, name ++ sep ++ zeroPad kf.1 pad ++ extSuffix kf.2)) = Prod.snd := rfl
    rw [h3]
    exact List.enumFrom_map_snd 1 _
  · simp only [LoopState.start, List.nil_append]
    exact plannedRenames_sorted name sep pad _ 1 script (le_refl 1) (by omega)

theorem renamed_order_preserved_witness :
    ([ascii "b.txt", ascii "a.txt", ascii "c"].filter
        (fun f => eligible false ((fun _ => false) f))).length < 10 ^ (2 : Int).toNat ∧
    ∃ st, renameLoop (scriptedFS (fun _ => false)) (ascii "img") (ascii "-") 2 false
        [ascii "b.txt", ascii "a.txt", ascii "c"] (LoopState.start []) = some st ∧
      st.renames.map Attempt.source = [ascii "b.txt", ascii "a.txt", ascii "c"].filter
        (fun f => eligible false ((fun _ => false) f)) ∧
      List.Pairwise (fun a b : Attempt => bytesLess a.target b.target = true) st.renames :=
  ⟨by decide, renamed_order_preserved (fun _ => false) [] (ascii "img") (ascii "-") 2 false
    [ascii "b.txt", ascii "a.txt", ascii "c"] (by decide)⟩

/-! ## Configuration and confirmation -/

/-- C7, as the claim words it, fails for a negative value: `-p -3` leaves the
pad width at -3, and the prompt, which repeats `#` that many times, panics. -/
theorem negative_pad_kept :
    resolvePad (parsedPad (some (-3))) = -3 ∧ ¬ (1 ≤ resolvePad (parsedPad (some (-3)))) ∧
    main (exampleWorld (ascii "y\n") [ascii "a.txt"]) (exampleFlags (some (-3))) [] =
      Outcome.panicked := by
  decide

/-- C7, amended: the pad width handed on is 1 when `-p` is absent or is 0,
and is the given value otherwise; so it is at least 1 for every value that
is not negative. -/
theorem pad_default_one (v : Int) :
    resolvePad (parsedPad none) = 1 ∧ resolvePad (parsedPad (some 0)) = 1 ∧
    (v ≠ 0 → resolvePad (parsedPad (some v)) = v) ∧
    (0 ≤ v → 1 ≤ resolvePad (parsedPad (some v))) := by
  refine ⟨rfl, rfl, ?_, ?_⟩
  · intro h
    simp [resolvePad, parsedPad, h]
  · intro h
    simp only [resolvePad, parsedPad, Option.getD_some]
    split <;> omega

theorem pad_default_one_witness :
    resolvePad (parsedPad none) = 1 ∧ resolvePad (parsedPad (some 0)) = 1 ∧
    ((3 : Int) ≠ 0 → resolvePad (parsedPad (some 3)) = 3) ∧
    ((0 : Int) ≤ 3 → 1 ≤ resolvePad (parsedPad (some 3))) ∧ (3 : Int) ≠ 0 ∧ (0 : Int) ≤ 3 :=
  ⟨(pad_default_one 3).1, (pad_default_one 3).2.1, (pad_default_one 3).2.2.1,
    (pad_default_one 3).2.2.2, by decide, by decide⟩

theorem equalFold_cons (ut : GoString → GoString → Bool) (a t : Nat) (s r : GoString)
    (ha : a < 128) (ht : t < 128) :
    equalFold ut (a :: s) (t :: r) =
      (decide (t = a ∨ (65 ≤ min a t ∧ min a t ≤ 90 ∧ max a t = min a t + 32)) &&
        equalFold ut s r) := by
  have h : ¬ (128 ≤ a ∨ 128 ≤ t) := by omega
  simp only [equalFold, h, if_false]
  by_cases h1 : t = a
  · simp [h1]
  · by_cases h2 : 65 ≤ min a t ∧ min a t ≤ 90 ∧ max a t = min a t + 32
    · simp [h1, h2]
    · simp [h1, h2]

theorem foldByte_letter (a t : Nat) (ht1 : 65 ≤ t) (ht2 : t ≤ 90) :
    (t = a ∨ (65 ≤ min a t ∧ min a t ≤ 90 ∧ max a t = min a t + 32)) ↔ (a = t ∨ a = t + 32) := by
  simp only [min_def, max_def]
  split_ifs <;> omega

theorem foldByte_newline (a : Nat) :
    (10 = a ∨ (65 ≤ min a 10 ∧ min a 10 ≤ 90 ∧ max a 10 = min a 10 + 32)) ↔ a = 10 := by
  simp only [min_def, max_def]
  split_ifs <;> omega

theorem equalFold_nil_right (ut : GoString → GoString → Bool) (s : GoString) :
    equalFold ut s [] = true ↔ s = [] := by
  cases s <;> simp [equalFold]

theorem equalFold_Y (ut : GoString → GoString → Bool) (line : GoString)
    (h : ∀ b ∈ line, b < 128) :
    equalFold ut line [89, 10] = true ↔ ∃ y, (y = 89 ∨ y = 121) ∧ line = [y, 10] := by
  cases line with
  | nil => simp [equalFold]
  | cons a l1 =>
    have ha := h a (List.mem_cons_self a l1)
    cases l1 with
    | nil =>
      rw [equalFold_cons ut a 89 [] [10] ha (by decide)]
      simp [equalFold]
    | cons b l2 =>
      have hb := h b (List.mem_cons_of_mem a (List.mem_cons_self b l2))
      rw [equalFold_cons ut a 89 _ _ ha (by decide), equalFold_cons ut b 10 _ _ hb (by decide)]
      simp only [Bool.and_eq_true, decide_eq_true_eq, equalFold_nil_right,
        foldByte_letter a 89 (by decide) (by decide), foldByte_newline]
      constructor
      · rintro ⟨h1, h2, h3⟩
        exact ⟨a, h1, by rw [h2, h3]⟩
      · rintro ⟨y, hy, he⟩
        simp only [List.cons.injEq] at he
        obtain ⟨e1, e2, e3⟩ := he
        exact ⟨by rw [e1]; exact hy, e2, e3⟩

theorem equalFold_YES (ut : GoString → GoString → Bool) (line : GoString)
    (h : ∀ b ∈ line, b < 128) :
    equalFold ut line [89, 69, 83, 10] = true ↔
      ∃ y e z, (y = 89 ∨ y = 121) ∧ (e = 69 ∨ e = 101) ∧ (z = 83 ∨ z = 115) ∧
        line = [y, e, z, 10] := by
  cases line with
  | nil => simp [equalFold]
  | cons a l1 =>
    have ha := h a (List.mem_cons_self a l1)
    cases l1 with
    | nil =>
      rw [equalFold_cons ut a 89 [] _ ha (by decide)]
      simp [equalFold]
    | cons b l2 =>
      have hb := h b (List.mem_cons_of_mem a (List.mem_cons_self b l2))
      cases l2 with
      | nil =>
        rw [equalFold_cons ut a 89 _ _ ha (by decide),
          equalFold_cons ut b 69 [] _ hb (by decide)]
        simp [equalFold]
      | cons c l3 =>
        have hc := h c (List.mem_cons_of_mem a (List.mem_cons_of_mem b (List.mem_cons_self c l3)))
        cases l3 with
        | nil =>
          rw [equalFold_cons ut a 89 _ _ ha (by decide),
            equalFold_cons ut b 69 _ _ hb (by decide),
            equalFold_cons ut c 83 [] _ hc (by decide)]
          simp [equalFold]
        | cons d l4 =>
          have hd := h d (List.mem_cons_of_mem a (List.mem_cons_of_mem b
            (List.mem_cons_of_mem c (List.mem_cons_self d l4))))
          rw [equalFold_cons ut a 89 _ _ ha (by decide),
            equalFold_cons ut b 69 _ _ hb (by decide),
            equalFold_cons ut c 83 _ _ hc (by decide),
            equalFold_cons ut d 10 _ _ hd (by decide)]
          simp only [Bool.and_eq_true, decide_eq_true_eq, equalFold_nil_right,
            foldByte_letter a 89 (by decide) (by decide),
            foldByte_letter b 69 (by decide) (by decide),
            foldByte_letter c 83 (by decide) (by decide), foldByte_newline]
          constructor
          · rintro ⟨h1, h2, h3, h4, h5⟩
            exact ⟨a, b, c, h1, h2, h3, by rw [h4, h5]⟩
          · rintro ⟨y, e, z, hy, he, hz, hl⟩
            simp only [List.cons.injEq] at hl
            obtain ⟨e1, e2, e3, e4, e5⟩ := hl
            exact ⟨by rw [e1]; exact hy, by rw [e2]; exact he, by rw [e3]; exact hz, e4, e5⟩

theorem accepted_iff_yesLines (ut : GoString → GoString → Bool) (line : GoString)
    (h : ∀ b ∈ line, b < 128) :
    (equalFold ut line (ascii "Y\n") || equalFold ut line (ascii "YES\n")) = true ↔
      line ∈ yesLines := by
  have e1 : ascii "Y\n" = [89, 10] := by decide
  have e2 : ascii "YES\n" = [89, 69, 83, 10] := by decide
  have e3 : yesLines = [[89, 10], [121, 10], [89, 69, 83, 10], [89, 69, 115, 10],
      [89, 101, 83, 10], [89, 101, 115, 10], [121, 69, 83, 10], [121, 69, 115, 10],
      [121, 101, 83, 10], [121, 101, 115, 10]] := by decide
  rw [e1, e2, e3, Bool.or_eq_true, equalFold_Y ut line h, equalFold_YES ut line h]
  constructor
  · rintro (⟨y, hy, hl⟩ | ⟨y, e, z, hy, he, hz, hl⟩)
    · rcases hy with hy | hy <;> subst hy <;> subst hl <;> simp
    · rcases hy with hy | hy <;> rcases he with he | he <;> rcases hz with hz | hz <;>
        subst hy <;> subst he <;> subst hz <;> subst hl <;> simp
  · intro hm
    simp only [List.mem_cons, List.mem_singleton, List.not_mem_nil, or_false] at hm
    rcases hm with hm | hm | hm | hm | hm | hm | hm | hm | hm | hm <;> subst hm <;> simp

/-- C6, as the claim words it, fails for a line with white space around the
answer: the line ` y` trims to `y`, and the run still ends with exit code 0
before any rename. -/
theorem untrimmed_answer_declined :
    specConfirms (fun _ _ => false) (ascii " y\n") = true ∧
    main (exampleWorld (ascii " y\n") [ascii "a.txt"]) (exampleFlags none) [] =
      Outcome.exited 0 (LoopState.start []) := by
  decide

/-- C6, amended: when `-c` is absent, the prompt has been printed and a line
has been read, `main` goes on to list the directory and rename exactly when
the line as read, terminator included and nothing trimmed, folds to `Y` or
`YES` followed by a line feed; for every other line it exits with code 0
with no rename made.  For an ASCII line the accepted lines are the ten
spellings of `Y` and `YES` in upper and lower case directly followed by the
line feed. -/
theorem confirmation_gate {σ : Type} (W : World σ) (fl : Flags) (fs : σ)
    (name dir line : GoString) (hc : fl.c = false)
    (hn : resolveName fl.n fl.arg0 = .ok name) (hd : resolveDir W fl.d = .ok dir)
    (hp : 0 ≤ resolvePad (parsedPad fl.p)) (hl : W.stdinLine = some line) :
    ((equalFold W.unicodeTail line (ascii "Y\n") ||
        equalFold W.unicodeTail line (ascii "YES\n")) = true →
      main W fl fs =
        listAndRename W name (resolveSep fl.s) (resolvePad (parsedPad fl.p)) fl.i fs) ∧
    ((equalFold W.unicodeTail line (ascii "Y\n") ||
        equalFold W.unicodeTail line (ascii "YES\n")) = false →
      main W fl fs = Outcome.exited 0 (LoopState.start fs)) ∧
    ((∀ b ∈ line, b < 128) →
      ((equalFold W.unicodeTail line (ascii "Y\n") ||
        equalFold W.unicodeTail line (ascii "YES\n")) = true ↔ line ∈ yesLines)) := by
  have hr : stringsRepeat [35] (resolvePad (parsedPad fl.p)) =
      some (List.replicate (resolvePad (parsedPad fl.p)).toNat [35]).flatten := by
    have : ¬ resolvePad (parsedPad fl.p) < 0 := by omega
    simp [stringsRepeat, this]
  refine ⟨?_, ?_, accepted_iff_yesLines W.unicodeTail line⟩
  · intro h
    rw [Bool.or_eq_true] at h
    have h2 : (!equalFold W.unicodeTail line (ascii "Y\n") &&
        !equalFold W.unicodeTail line (ascii "YES\n")) = false := by
      rcases h with h | h <;> simp [h]
    simp only [main, hn, hd, confirmation, hc, hr, hl, h2]
    simp
  · intro h
    rw [Bool.or_eq_false_iff] at h
    have h2 : (!equalFold W.unicodeTail line (ascii "Y\n") &&
        !equalFold W.unicodeTail line (ascii "YES\n")) = true := by
      simp [h.1, h.2]
    simp only [main, hn, hd, confirmation, hc, hr, hl, h2]
    simp

theorem confirmation_gate_witness :
    (exampleFlags none).c = false ∧
    resolveName (exampleFlags none).n (exampleFlags none).arg0 = .ok (ascii "img") ∧
    resolveDir (exampleWorld (ascii "yEs\n") [ascii "a.txt"]) (exampleFlags none).d =
      .ok (ascii "/tmp") ∧
    0 ≤ resolvePad (parsedPad (exampleFlags none).p) ∧
    (exampleWorld (ascii "yEs\n") [ascii "a.txt"]).stdinLine = some (ascii "yEs\n") ∧
    (((equalFold (exampleWorld (ascii "yEs\n") [ascii "a.txt"]).unicodeTail (ascii "yEs\n")
          (ascii "Y\n") ||
        equalFold (exampleWorld (ascii "yEs\n") [ascii "a.txt"]).unicodeTail (ascii "yEs\n")
          (ascii "YES\n")) = true →
      main (exampleWorld (ascii "yEs\n") [ascii "a.txt"]) (exampleFlags none) [] =
        listAndRename (exampleWorld (ascii "yEs\n") [ascii "a.txt"]) (ascii "img")
          (resolveSep (exampleFlags none).s) (resolvePad (parsedPad (exampleFlags none).p))
          (exampleFlags none).i []) ∧
    ((equalFold (exampleWorld (ascii "yEs\n") [ascii "a.txt"]).unicodeTail (ascii "yEs\n")
          (ascii "Y\n") ||
        equalFold (exampleWorld (ascii "yEs\n") [ascii "a.txt"]).unicodeTail (ascii "yEs\n")
          (ascii "YES\n")) = false →
      main (exampleWorld (ascii "yEs\n") [ascii "a.txt"]) (exampleFlags none) [] =
        Outcome.exited 0 (LoopState.start [])) ∧
    ((∀ b ∈ ascii "yEs\n", b < 128) →
      ((equalFold (exampleWorld (ascii "yEs\n") [ascii "a.txt"]).unicodeTail (ascii "yEs\n")
          (ascii "Y\n") ||
        equalFold (exampleWorld (ascii "yEs\n") [ascii "a.txt"]).unicodeTail (ascii "yEs\n")
          (ascii "YES\n")) = true ↔ ascii "yEs\n" ∈ yesLines))) :=
  ⟨by decide, rfl, rfl, by decide, by decide,
    confirmation_gate (exampleWorld (ascii "yEs\n") [ascii "a.txt"]) (exampleFlags none) []
      (ascii "img") (ascii "/tmp") (ascii "yEs\n") (by decide) rfl rfl
      (by decide) (by decide)⟩

/-! ## The loop over a directory -/

theorem find_mid (pre : Directory) (f : GoString) (node : Node) (rest : Directory)
    (h : f ∉ pre.names) : Directory.find (pre ++ (f, node) :: rest) f = some node := by
  induction pre with
  | nil => simp [Directory.find]
  | cons e pre ih =>
    have h1 : e.1 ≠ f := fun he => h (by simp [Directory.names, ← he])
    have h2 : f ∉ Directory.names pre := fun hm => h (by
      simp only [Directory.names, List.map_cons, List.mem_cons] at hm ⊢
      exact Or.inr hm)
    have := ih h2
    simp only [Directory.find, List.cons_append, List.find?_cons, h1, decide_False] at this ⊢
    exact this

theorem filter_absent (l : Directory) (t : GoString) (h : t ∉ l.names) :
    l.filter (fun e => decide (e.1 ≠ t)) = l := by
  rw [List.filter_eq_self]
  intro e he
  have : e.1 ≠ t := fun h2 => h (by
    rw [← h2]
    exact List.mem_map_of_mem Prod.fst he)
  simp [this]

theorem map_absent (l : Directory) (f t : GoString) (h : f ∉ l.names) :
    l.map (fun e => if e.1 = f then (t, e.2) else e) = l := by
  induction l with
  | nil => rfl
  | cons e l ih =>
    have h1 : e.1 ≠ f := fun he => h (by simp [Directory.names, ← he])
    have h2 : f ∉ Directory.names l := fun hm => h (by
      simp only [Directory.names, List.map_cons, List.mem_cons] at hm ⊢
      exact Or.inr hm)
    simp only [List.map_cons, h1, if_false, ih h2]

theorem names_mid (pre : Directory) (e : GoString × Node) (rest : Directory) :
    Directory.names (pre ++ e :: rest) = pre.names ++ e.1 :: rest.names := by
  simp [Directory.names]

theorem nodup_mid (pre : Directory) (e : GoString × Node) (rest : Directory)
    (h : (Directory.names (pre ++ e :: rest)).Nodup) :
    e.1 ∉ pre.names ∧ e.1 ∉ rest.names ∧ (pre.names ++ rest.names).Nodup := by
  rw [names_mid, List.nodup_middle, List.nodup_cons, List.mem_append, not_or] at h
  exact ⟨h.1.1, h.1.2, h.2⟩

theorem nodup_mid_of (pre : Directory) (e : GoString × Node) (rest : Directory)
    (h1 : e.1 ∉ pre.names) (h2 : e.1 ∉ rest.names) (h3 : (pre.names ++ rest.names).Nodup) :
    (Directory.names ((pre ++ [e]) ++ rest)).Nodup := by
  have e1 : (pre ++ [e]) ++ rest = pre ++ e :: rest := by simp
  rw [e1, names_mid, List.nodup_middle, List.nodup_cons, List.mem_append, not_or]
  exact ⟨⟨h1, h2⟩, h3⟩

theorem find_absent (l : Directory) (t : GoString) (h : t ∉ l.names) :
    Directory.find l t = none := by
  induction l with
  | nil => rfl
  | cons e l ih =>
    have h1 : e.1 ≠ t := fun he => h (by simp [Directory.names, ← he])
    have h2 : t ∉ Directory.names l := fun hm => h (by
      simp only [Directory.names, List.map_cons, List.mem_cons] at hm ⊢
      exact Or.inr hm)
    have := ih h2
    simp only [Directory.find, List.find?_cons, h1, decide_False] at this ⊢
    exact this

theorem find_present (l : Directory) (f : GoString) (h : f ∈ l.names) :
    ∃ node, Directory.find l f = some node := by
  induction l with
  | nil => simp [Directory.names] at h
  | cons e l ih =>
    by_cases h1 : e.1 = f
    · exact ⟨e.2, by simp [Directory.find, List.find?_cons, h1]⟩
    · have h2 : f ∈ Directory.names l := by
        simp only [Directory.names, List.map_cons, List.mem_cons] at h
        rcases h with h | h
        · exact absurd h.symm h1
        · exact h
      obtain ⟨node, hn⟩ := ih h2
      refine ⟨node, ?_⟩
      simp only [Directory.find, List.find?_cons, h1, decide_False] at hn ⊢
      exact hn

theorem mem_names_of_find (l : Directory) (f : GoString) (node : Node)
    (h : Directory.find l f = some node) : f ∈ l.names := by
  by_contra hn
  rw [find_absent l f hn] at h
  exact Option.noConfusion h

theorem replace_keeps (d : Directory) (src t g : GoString) (hg : g ≠ src)
    (hgd : g ∈ d.names) (hsd : src ∈ d.names) (hst : src ≠ t) :
    g ∈ Directory.names ((d.filter (fun e => decide (e.1 ≠ t))).map
      (fun e => if e.1 = src then (t, e.2) else e)) := by
  simp only [Directory.names, List.mem_map, List.mem_filter, decide_eq_true_eq] at hgd hsd ⊢
  by_cases hgt : g = t
  · obtain ⟨e, he, hes⟩ := hsd
    refine ⟨(t, e.2), ⟨e, ⟨he, by rw [hes]; exact hst⟩, by simp [hes]⟩, hgt.symm⟩
  · obtain ⟨e, he, heg⟩ := hgd
    have h1 : e.1 ≠ src := by rw [heg]; exact hg
    exact ⟨e, ⟨e, ⟨he, by rw [heg]; exact hgt⟩, by simp [h1]⟩, heg⟩

theorem rename_keeps (rules : RenameRules) (d : Directory) (src dst g : GoString)
    (hg : g ≠ src) (hgd : g ∈ d.names) :
    g ∈ Directory.names (Directory.rename rules d src dst).1 := by
  unfold Directory.rename
  cases hf : d.find src with
  | none => exact hgd
  | some node =>
    have hsd := mem_names_of_find d src node hf
    simp only []
    split
    · exact hgd
    · split
      · exact hgd
      · simp only [Directory.names, List.mem_map, List.mem_filter, decide_eq_true_eq] at hgd ⊢
        obtain ⟨e, he, heg⟩ := hgd
        exact ⟨e, ⟨he, by rw [heg]; exact hg⟩, heg⟩
      · split
        · exact hgd
        · split
          · exact hgd
          · rename_i t _ _ hst
            split
            · split
              · exact replace_keeps d src t g hg hgd hsd hst
              · exact hgd
            · exact replace_keeps d src t g hg hgd hsd hst

theorem rename_mid (rules : RenameRules) (pre : Directory) (f t : GoString) (node : Node)
    (rest : Directory) (hf1 : f ∉ pre.names) (hf2 : f ∉ rest.names) (ht1 : t ∉ pre.names)
    (ht2 : t ∉ rest.names) (h47 : 47 ∉ t) :
    Directory.rename rules (pre ++ (f, node) :: rest) f t = (pre ++ (f, node) :: rest, true) ∨
    Directory.rename rules (pre ++ (f, node) :: rest) f t = (pre ++ (t, node) :: rest, false) := by
  unfold Directory.rename
  rw [find_mid pre f node rest hf1]
  simp only [Directory.place, h47, if_false]
  by_cases hr : rules.refuses (pre ++ (f, node) :: rest) f t = true
  · left; simp [hr]
  · by_cases hlen : nameMax < t.length
    · left; simp [hr, hlen]
    · by_cases hft : f = t
      · right; subst hft; simp [hr, hlen]
      · right
        have hnone : Directory.find (pre ++ (f, node) :: rest) t = none := by
          apply find_absent
          rw [names_mid]
          intro hm
          rcases List.mem_append.1 hm with hm | hm
          · exact ht1 hm
          · rcases List.mem_cons.1 hm with hm | hm
            · exact hft hm.symm
            · exact ht2 hm
        have hne : decide ((f, node).1 ≠ t) = true := by simpa using hft
        simp only [hr, hlen, hft, if_false, hnone, List.filter_append, List.filter_cons, hne,
          if_true, filter_absent pre t ht1, filter_absent rest t ht2, List.map_append,
          List.map_cons, map_absent pre f t hf1, map_absent rest f t hf2]
        simp

theorem loopBody_dir (rules : RenameRules) (name sep : GoString) (pad : Int) (inc : Bool)
    (cur : Directory) (f : GoString) (node : Node) (c : Nat) (ok : Bool) (acc : List Attempt)
    (hfind : Directory.find cur f = some node) :
    loopBody (dirFS rules) name sep pad inc
        { fs := cur, fileNum := c, success := ok, renames := acc } f =
      some (if eligible inc node.isDirectory = true then
          { fs := (Directory.rename rules cur f
              (name ++ sep ++ zeroPad c pad ++ extSuffix f)).1
            fileNum := c + 1
            success := if (Directory.rename rules cur f
              (name ++ sep ++ zeroPad c pad ++ extSuffix f)).2 then false else ok
            renames := acc ++ [{ source := f
                                 target := name ++ sep ++ zeroPad c pad ++ extSuffix f
                                 failed := (Directory.rename rules cur f
                                   (name ++ sep ++ zeroPad c pad ++ extSuffix f)).2 }] }
        else { fs := cur, fileNum := c, success := ok, renames := acc }) := by
  have hdir : (dirFS rules).isDir cur f = some node.isDirectory := by
    simp only [dirFS, hfind, Option.map_some']
  by_cases he : eligible inc node.isDirectory = true
  · have he2 : (!node.isDirectory || (node.isDirectory && inc)) = true := he
    simp only [loopBody, hdir, he2, he, if_true, renameTarget_eq]
    rfl
  · have he2 : ¬ (!node.isDirectory || (node.isDirectory && inc)) = true := he
    simp only [loopBody, hdir, he2, he, if_false]
    simp

theorem renameLoop_dir_total (rules : RenameRules) (name sep : GoString) (pad : Int)
    (inc : Bool) (listing : List GoString) :
    ∀ (cur : Directory) (c : Nat) (ok : Bool) (acc : List Attempt),
    listing.Nodup → (∀ f ∈ listing, f ∈ cur.names) →
    ∃ st, renameLoop (dirFS rules) name sep pad inc listing
        { fs := cur, fileNum := c, success := ok, renames := acc } = some st ∧
      ∃ more, st.renames = acc ++ more := by
  induction listing with
  | nil => intro cur c ok acc _ _; exact ⟨_, rfl, [], by simp⟩
  | cons f rest ih =>
    intro cur c ok acc hnd hin
    obtain ⟨hfr, hnd2⟩ := List.nodup_cons.1 hnd
    obtain ⟨node, hfind⟩ := find_present cur f (hin f (List.mem_cons_self f rest))
    simp only [renameLoop, loopBody_dir rules name sep pad inc cur f node c ok acc hfind]
    by_cases he : eligible inc node.isDirectory = true
    · simp only [he, if_true]
      obtain ⟨st, hst, more, hmore⟩ := ih _ (c + 1)
        (if (Directory.rename rules cur f (name ++ sep ++ zeroPad c pad ++ extSuffix f)).2
          then false else ok)
        (acc ++ [{ source := f, target := name ++ sep ++ zeroPad c pad ++ extSuffix f,
                   failed := (Directory.rename rules cur f
                     (name ++ sep ++ zeroPad c pad ++ extSuffix f)).2 }]) hnd2
        (fun g hg => rename_keeps rules cur f _ g (fun e => hfr (e ▸ hg))
          (hin g (List.mem_cons_of_mem f hg)))
      exact ⟨st, hst, _, by rw [hmore, List.append_assoc]⟩
    · have he3 : eligible inc node.isDirectory = false := by simpa using he
      simp only [he3, Bool.false_eq_true, if_false]
      exact ih cur c ok acc hnd2 (fun g hg => hin g (List.mem_cons_of_mem f hg))

theorem extScan_no_slash (f : GoString) : ∀ k, 47 ∉ f.drop k → 47 ∉ extScan f k := by
  intro k
  induction k with
  | zero => intro _; simp [extScan]
  | succ i ih =>
    intro h
    cases hg : f[i]? with
    | none => simp [extScan, hg]
    | some c =>
      obtain ⟨hi, hci⟩ := List.getElem?_eq_some.1 hg
      have hd : f.drop i = c :: f.drop (i + 1) := by
        rw [List.drop_eq_getElem_cons hi, hci]
      by_cases hc47 : c = 47
      · simp [extScan, hg, hc47]
      · by_cases hc46 : c = 46
        · simp only [extScan, hg, hc47, hc46, if_false, if_true]
          rw [hd]
          intro hm
          rcases List.mem_cons.1 hm with hm | hm
          · exact hc47 hm.symm
          · exact h hm
        · simp only [extScan, hg, hc47, hc46, if_false]
          apply ih
          rw [hd]
          intro hm
          rcases List.mem_cons.1 hm with hm | hm
          · exact hc47 hm.symm
          · exact h hm

theorem target_no_slash (name sep : GoString) (pad : Int) (c : Nat) (f : GoString)
    (hn : 47 ∉ name) (hs : 47 ∉ sep) : 47 ∉ name ++ sep ++ zeroPad c pad ++ extSuffix f := by
  have hz : 47 ∉ zeroPad c pad := fun hm => by
    have := zeroPad_digits c pad 47 hm
    omega
  have he : 47 ∉ extSuffix f := by
    unfold extSuffix
    split
    · simp
    · exact extScan_no_slash f f.length (by simp)
  simp only [List.mem_append, not_or]
  exact ⟨⟨⟨hn, hs⟩, hz⟩, he⟩

theorem renameLoop_dir (rules : RenameRules) (name sep : GoString) (pad : Int) (inc : Bool)
    (hn : 47 ∉ name) (hs : 47 ∉ sep) (rest : Directory) :
    ∀ (pre : Directory) (c : Nat) (ok : Bool) (acc : List Attempt),
    (Directory.names (pre ++ rest)).Nodup → noClobber name sep pad inc pre rest c →
    ∃ st, renameLoop (dirFS rules) name sep pad inc (Directory.names rest)
        { fs := pre ++ rest, fileNum := c, success := ok, renames := acc } = some st ∧
      (∃ more, st.renames = acc ++ more) ∧
      ((∀ a ∈ st.renames, a.failed = false) →
        st.fs = pre ++ relabel name sep pad inc rest c ∧
        (Directory.names (pre ++ relabel name sep pad inc rest c)).Nodup) := by
  induction rest with
  | nil =>
    intro pre c ok acc hnd _
    refine ⟨_, rfl, ⟨[], by simp⟩, fun _ => ?_⟩
    simp only [relabel, List.append_nil, true_and]
    simpa using hnd
  | cons e rest ih =>
    intro pre c ok acc hnd hsafe
    obtain ⟨hf1, hf2, hnd2⟩ := nodup_mid pre e rest hnd
    have hnames : Directory.names (e :: rest) = e.1 :: Directory.names rest := rfl
    have hfind : Directory.find (pre ++ e :: rest) e.1 = some e.2 :=
      find_mid pre e.1 e.2 rest hf1
    rw [hnames]
    simp only [renameLoop, loopBody_dir rules name sep pad inc (pre ++ e :: rest) e.1 e.2 c ok
      acc hfind]
    by_cases he : eligible inc e.2.isDirectory = true
    · simp only [noClobber, he, if_true] at hsafe
      obtain ⟨⟨ht1, ht2⟩, hsafe2⟩ := hsafe
      simp only [he, if_true, relabel]
      rcases rename_mid rules pre e.1 (name ++ sep ++ zeroPad c pad ++ extSuffix e.1) e.2 rest
        hf1 hf2 ht1 ht2 (target_no_slash name sep pad c e.1 hn hs) with hr | hr
      · have hr2 : Directory.rename rules (pre ++ e :: rest) e.1
            (name ++ sep ++ zeroPad c pad ++ extSuffix e.1) = (pre ++ e :: rest, true) := hr
        rw [hr2]
        have hnd3 : (Directory.names rest).Nodup := (List.nodup_append.1 hnd2).2.1
        obtain ⟨st, hst, more, hmore⟩ := renameLoop_dir_total rules name sep pad inc
          (Directory.names rest) (pre ++ e :: rest) (c + 1) (if true = true then false else ok)
          (acc ++ [{ source := e.1, target := name ++ sep ++ zeroPad c pad ++ extSuffix e.1,
                     failed := true }]) hnd3
          (fun g hg => by rw [names_mid]; simp [hg])
        refine ⟨st, hst, ⟨_, by rw [hmore, List.append_assoc]⟩, fun hall => ?_⟩
        exfalso
        have := hall { source := e.1, target := name ++ sep ++ zeroPad c pad ++ extSuffix e.1,
                       failed := true } (by rw [hmore]; simp)
        simp at this
      · have hr2 : Directory.rename rules (pre ++ e :: rest) e.1
            (name ++ sep ++ zeroPad c pad ++ extSuffix e.1) =
            (pre ++ (name ++ sep ++ zeroPad c pad ++ extSuffix e.1, e.2) :: rest, false) := hr
        rw [hr2]
        have hfs : pre ++ (name ++ sep ++ zeroPad c pad ++ extSuffix e.1, e.2) :: rest =
            (pre ++ [(name ++ sep ++ zeroPad c pad ++ extSuffix e.1, e.2)]) ++ rest := by simp
        have hnd3 := nodup_mid_of pre (name ++ sep ++ zeroPad c pad ++ extSuffix e.1, e.2) rest
          ht1 ht2 hnd2
        obtain ⟨st, hst, ⟨more, hmore⟩, himp⟩ :=
          ih (pre ++ [(name ++ sep ++ zeroPad c pad ++ extSuffix e.1, e.2)]) (c + 1)
            (if false = true then false else ok)
            (acc ++ [{ source := e.1, target := name ++ sep ++ zeroPad c pad ++ extSuffix e.1,
                       failed := false }]) hnd3 hsafe2
        simp only [hfs]
        refine ⟨st, hst, ⟨_, by rw [hmore, List.append_assoc]⟩, fun hall => ?_⟩
        have := himp hall
        simpa using this
    · have he3 : eligible inc e.2.isDirectory = false := by simpa using he
      simp only [noClobber, he3, Bool.false_eq_true, if_false] at hsafe
      simp only [he3, Bool.false_eq_true, if_false, relabel]
      have hfs : pre ++ e :: rest = (pre ++ [e]) ++ rest := by simp
      have hnd3 := nodup_mid_of pre e rest hf1 hf2 hnd2
      obtain ⟨st, hst, hmore, himp⟩ := ih (pre ++ [e]) c ok acc hnd3 hsafe
      simp only [hfs]
      refine ⟨st, hst, hmore, fun hall => ?_⟩
      have := himp hall
      simpa using this

theorem relabel_append (name sep : GoString) (pad : Int) (inc : Bool) (a : Directory) :
    ∀ (b : Directory) (c : Nat),
    relabel name sep pad inc (a ++ b) c =
      relabel name sep pad inc a c ++
        relabel name sep pad inc b (c + (a.filter (fun e => eligible inc e.2.isDirectory)).length) := by
  induction a with
  | nil => intro b c; simp [relabel]
  | cons e a ih =>
    intro b c
    have hcons : (e :: a) ++ b = e :: (a ++ b) := rfl
    rw [hcons]
    by_cases he : eligible inc e.2.isDirectory = true
    · have h1 : c + 1 + (a.filter (fun e => eligible inc e.2.isDirectory)).length =
          c + ((a.filter (fun e => eligible inc e.2.isDirectory)).length + 1) := by omega
      simp only [relabel, he, if_true, List.filter_cons, List.length_cons, List.cons_append]
      rw [ih b (c + 1), h1]
    · have he3 : eligible inc e.2.isDirectory = false := by simpa using he
      simp only [relabel, he3, Bool.false_eq_true, if_false, List.filter_cons,
        List.cons_append]
      rw [ih b c]

theorem relabel_length (name sep : GoString) (pad : Int) (inc : Bool) (l : Directory) :
    ∀ c : Nat, (relabel name sep pad inc l c).length = l.length := by
  induction l with
  | nil => intro c; rfl
  | cons e l ih =>
    intro c
    simp only [relabel]
    split <;> simp [ih]

theorem relabel_names (name sep : GoString) (pad : Int) (inc : Bool) (l : Directory) :
    ∀ (c : Nat) (n : GoString), n ∈ Directory.names (relabel name sep pad inc l c) →
    (∃ s ∈ l, eligible inc s.2.isDirectory = false ∧ n = s.1) ∨
    (∃ (k : Nat) (g : GoString), c ≤ k ∧
      k < c + (l.filter (fun e => eligible inc e.2.isDirectory)).length ∧
      n = name ++ sep ++ zeroPad k pad ++ extSuffix g) := by
  induction l with
  | nil => intro c n hn; simp [relabel, Directory.names] at hn
  | cons e l ih =>
    intro c n hn
    by_cases he : eligible inc e.2.isDirectory = true
    · simp only [relabel, he, if_true, Directory.names, List.map_cons, List.mem_cons] at hn
      rcases hn with hn | hn
      · right
        exact ⟨c, e.1, le_refl c, by simp [List.filter_cons, he], hn⟩
      · rcases ih (c + 1) n hn with ⟨s, hs, h1, h2⟩ | ⟨k, g, h1, h2, h3⟩
        · left; exact ⟨s, List.mem_cons_of_mem e hs, h1, h2⟩
        · right
          refine ⟨k, g, by omega, ?_, h3⟩
          simp only [List.filter_cons, he, if_true, List.length_cons]
          omega
    · have he3 : eligible inc e.2.isDirectory = false := by simpa using he
      simp only [relabel, he3, Bool.false_eq_true, if_false, Directory.names, List.map_cons,
        List.mem_cons] at hn
      rcases hn with hn | hn
      · left; exact ⟨e, List.mem_cons_self e l, he3, hn⟩
      · rcases ih c n hn with ⟨s, hs, h1, h2⟩ | ⟨k, g, h1, h2, h3⟩
        · left; exact ⟨s, List.mem_cons_of_mem e hs, h1, h2⟩
        · right
          refine ⟨k, g, h1, ?_, h3⟩
          simpa [List.filter_cons, he3] using h2

theorem noClobber_of_static (name sep : GoString) (pad : Int) (inc : Bool) (rest : Directory) :
    ∀ pre0 : Directory,
    (∀ (pre : Directory) (e : GoString × Node) (post : Directory),
      pre0 ++ rest = pre ++ e :: post → eligible inc e.2.isDirectory = true →
      name ++ sep ++ zeroPad (1 + (pre.filter (fun x => eligible inc x.2.isDirectory)).length) pad
          ++ extSuffix e.1 ∉ Directory.names post ∧
      ∀ s ∈ pre, eligible inc s.2.isDirectory = false →
        name ++ sep ++ zeroPad (1 + (pre.filter (fun x => eligible inc x.2.isDirectory)).length)
          pad ++ extSuffix e.1 ≠ s.1) →
    noClobber name sep pad inc (relabel name sep pad inc pre0 1) rest
      (1 + (pre0.filter (fun x => eligible inc x.2.isDirectory)).length) := by
  induction rest with
  | nil => intro pre0 _; simp [noClobber]
  | cons e rest ih =>
    intro pre0 H
    have hH : ∀ x : GoString × Node, (pre0 ++ [x]) ++ rest = pre0 ++ x :: rest := by
      intro x; simp
    have hnext := ih (pre0 ++ [e]) (by rw [hH e]; exact H)
    rw [relabel_append] at hnext
    by_cases he : eligible inc e.2.isDirectory = true
    · obtain ⟨h1, h2⟩ := H pre0 e rest rfl he
      simp only [noClobber, he, if_true]
      refine ⟨⟨?_, h1⟩, ?_⟩
      · intro hm
        rcases relabel_names name sep pad inc pre0 1 _ hm with ⟨s, hs, hs1, hs2⟩ |
          ⟨k, g, hk1, hk2, hk3⟩
        · exact h2 s hs hs1 hs2
        · have := target_counter_unique name sep pad _ k e.1 g hk3
          omega
      · simpa [relabel, he, List.filter_append, List.filter_cons, Nat.add_assoc] using hnext
    · have he3 : eligible inc e.2.isDirectory = false := by simpa using he
      simp only [noClobber, he3, Bool.false_eq_true, if_false]
      simpa [relabel, he3, List.filter_append, List.filter_cons] using hnext

theorem find_of_mem (l : Directory) (n : GoString) (node : Node)
    (hm : (n, node) ∈ l) (hnd : (Directory.names l).Nodup) :
    Directory.find l n = some node := by
  obtain ⟨pre, post, rfl⟩ := List.append_of_mem hm
  exact find_mid pre n node post (nodup_mid pre (n, node) post hnd).1

/-- The rename of the directory model refuses what `os.Rename` refuses: a
file onto a directory, a directory onto a file, and a new name of more than
255 bytes; the directory is left as it is.  With pad 300 both renames of the
directory with the files `a` and `img-1` fail and the run is not a
success. -/
theorem rename_refused_examples :
    Directory.rename plainRules mixedDir (ascii "a.txt") (ascii "sub") = (mixedDir, true) ∧
    Directory.rename plainRules mixedDir (ascii "sub") (ascii "a.txt") = (mixedDir, true) ∧
    Directory.rename plainRules mixedDir (ascii "a.txt") (List.replicate 256 48) =
      (mixedDir, true) ∧
    (renameLoop (dirFS plainRules) (ascii "img") (ascii "-") 300 false exampleDir.names
        (LoopState.start exampleDir)).map
      (fun st => (st.fs, st.success, st.renames.map Attempt.failed)) =
      some (exampleDir, false, [true, true]) := by
  decide

/-- C2, as the claim words it, fails in two ways.  When a new name is the
name of a later entry: in the directory with the files `a` and `img-1`,
renamed with name `img`, separator `-` and pad 1, both renames succeed, `a`
replaces `img-1` and is then renamed to `img-2`; one entry is left and
nothing is called `img-1`.  When the base name holds a `/`: in the directory
with the subdirectory `sub` and the file `a.txt`, renamed with name
`sub/img`, the one rename succeeds and moves `a.txt` into `sub`; one entry is
left. -/
theorem rename_loses_entries :
    (renameLoop (dirFS plainRules) (ascii "img") (ascii "-") 1 false exampleDir.names
        (LoopState.start exampleDir)).map
      (fun st => (st.fs, st.renames)) =
      some ([(ascii "img-2", { content := 1, isDirectory := false })],
        [{ source := ascii "a", target := ascii "img-1", failed := false },
          { source := ascii "img-1", target := ascii "img-2", failed := false }]) ∧
    exampleDir.length = 2 ∧
    Directory.find [(ascii "img-2", { content := 1, isDirectory := false })] (ascii "img-1")
      = none ∧
    (renameLoop (dirFS plainRules) (ascii "sub/img") (ascii "-") 1 false mixedDir.names
        (LoopState.start mixedDir)).map
      (fun st => (st.fs, st.renames)) =
      some ([(ascii "sub", { content := 1, isDirectory := true })],
        [{ source := ascii "a.txt", target := ascii "sub/img-1.txt", failed := false }]) ∧
    mixedDir.length = 2 := by
  decide

/-- C2, amended: in a directory whose names are distinct, when the base name
and the separator hold no `/` and no new name is the name of an entry the
loop has not renamed yet (a later entry of the listing, or an earlier entry
that is skipped), the loop runs to its end, and if every rename succeeds then
every eligible entry is found after the run under the new name of its
counter value, every skipped entry is found under its old name, and the
directory holds as many entries as before. -/
theorem renamed_entries_kept (rules : RenameRules) (name sep : GoString) (pad : Int)
    (inc : Bool) (d : Directory) (hnd : d.names.Nodup) (hn : 47 ∉ name) (hs : 47 ∉ sep)
    (hfree : ∀ (pre : Directory) (e : GoString × Node) (post : Directory),
      d = pre ++ e :: post → eligible inc e.2.isDirectory = true →
      name ++ sep ++ zeroPad (1 + (pre.filter (fun x => eligible inc x.2.isDirectory)).length) pad
          ++ extSuffix e.1 ∉ Directory.names post ∧
      ∀ s ∈ pre, eligible inc s.2.isDirectory = false →
        name ++ sep ++ zeroPad (1 + (pre.filter (fun x => eligible inc x.2.isDirectory)).length)
          pad ++ extSuffix e.1 ≠ s.1) :
    ∃ st, renameLoop (dirFS rules) name sep pad inc d.names (LoopState.start d) = some st ∧
      ((∀ a ∈ st.renames, a.failed = false) →
        st.fs.length = d.length ∧
        (∀ (pre : Directory) (e : GoString × Node) (post : Directory),
          d = pre ++ e :: post → eligible inc e.2.isDirectory = true →
          ∃ t, renameTarget name sep pad
              (1 + (pre.filter (fun x => eligible inc x.2.isDirectory)).length) e.1 = some t ∧
            st.fs.find t = some e.2) ∧
        (∀ e ∈ d, eligible inc e.2.isDirectory = false → st.fs.find e.1 = some e.2)) := by
  have hsafe := noClobber_of_static name sep pad inc d [] (by simpa using hfree)
  simp only [relabel, List.filter_nil, List.length_nil, Nat.add_zero] at hsafe
  obtain ⟨st, hrun, _, himp⟩ := renameLoop_dir rules name sep pad inc hn hs d [] 1 true []
    (by simpa using hnd) hsafe
  simp only [List.nil_append] at hrun himp
  refine ⟨st, hrun, fun hall => ?_⟩
  obtain ⟨hfs, hnd2⟩ := himp hall
  rw [hfs]
  refine ⟨relabel_length name sep pad inc d 1, ?_, ?_⟩
  · intro pre e post hd he
    refine ⟨_, renameTarget_eq name sep pad _ e.1, ?_⟩
    apply find_of_mem _ _ _ _ hnd2
    rw [hd, relabel_append]
    simp [relabel, he]
  · intro e he hel
    apply find_of_mem _ _ _ _ hnd2
    obtain ⟨pre, post, hd⟩ := List.append_of_mem he
    rw [hd, relabel_append]
    simp [relabel, hel]

theorem renamed_entries_kept_witness :
    mixedDir.names.Nodup ∧ 47 ∉ ascii "img" ∧ 47 ∉ ascii "-" ∧
    (renameLoop (dirFS plainRules) (ascii "img") (ascii "-") 2 false mixedDir.names
        (LoopState.start mixedDir)).map (fun st => (st.fs, st.renames)) =
      some ([(ascii "sub", { content := 1, isDirectory := true }),
          (ascii "img-01.txt", { content := 2, isDirectory := false })],
        [{ source := ascii "a.txt", target := ascii "img-01.txt", failed := false }]) ∧
    ∃ st, renameLoop (dirFS plainRules) (ascii "img") (ascii "-") 2 false mixedDir.names
        (LoopState.start mixedDir) = some st ∧
      ((∀ a ∈ st.renames, a.failed = false) →
        st.fs.length = mixedDir.length ∧
        (∀ (pre : Directory) (e : GoString × Node) (post : Directory),
          mixedDir = pre ++ e :: post → eligible false e.2.isDirectory = true →
          ∃ t, renameTarget (ascii "img") (ascii "-") 2
              (1 + (pre.filter (fun x => eligible false x.2.isDirectory)).length) e.1 = some t ∧
            st.fs.find t = some e.2) ∧
        (∀ e ∈ mixedDir, eligible false e.2.isDirectory = false →
          st.fs.find e.1 = some e.2)) :=
  ⟨by decide, by decide, by decide, by decide,
    renamed_entries_kept plainRules (ascii "img") (ascii "-") 2 false mixedDir (by decide)
      (by decide) (by decide) (by
    intro pre e post h he
    rcases pre with _ | ⟨x, _ | ⟨y, pre⟩⟩
    · simp only [mixedDir, List.nil_append, List.cons.injEq] at h
      rw [← h.1] at he
      exact absurd he (by decide)
    · simp only [mixedDir, List.cons_append, List.nil_append, List.cons.injEq] at h
      obtain ⟨hx, he2, hpost⟩ := h
      subst hx
      subst he2
      subst hpost
      refine ⟨by simp [Directory.names], ?_⟩
      intro s hs _
      rw [List.mem_singleton] at hs
      subst hs
      decide
    · simp only [mixedDir, List.cons_append, List.cons.injEq] at h
      have := h.2.2
      simp at this)⟩

end Gond
